import Mathlib

/-!
Verification of the crossword grid/cursor/renderer core of the xword
program (source: xword.py, term.py).  The Python data structures are
shallowly embedded: the grid is a list of rows of characters (the '.'
character marks a blocked cell, exactly as in the solution matrix that
`Puzzle.__init__` chunks into rows); squares are identified by their
immutable integer coordinates; the doubly linked prev/next pointers that
`Puzzle.__init__` installs are embedded as successor/predecessor in the
flattened per-direction word order, which is precisely the order in
which the linking loop walks the squares; the mutable guess/status of a
square is threaded explicitly as a function from positions to states.

Run discovery and clue numbering are performed in the Python program by
the external puz library (`data.clue_numbering()`), whose code is not
part of this repository; those two definitions are modelled from the
specification text (maximal contiguous runs of unblocked cells per
direction; run starts sorted row-major and numbered from 1, a dual
start sharing one number) and validated against the known 7x7 test
puzzle below.
-/

namespace Xword

/-- Translation of `sign` (xword.py line 18): `(n > 0) - (n < 0)`. -/
def sign (n : Int) : Int := (if n > 0 then (1 : Int) else 0) - (if n < 0 then (1 : Int) else 0)

/-- The two axis directions (xword.py `Direction`). -/
inductive Direction
  | ACROSS
  | DOWN
deriving DecidableEq, Repr

/-- Translation of `Cursor.other_direction` (xword.py line 592). -/
def Direction.other : Direction → Direction
  | .ACROSS => .DOWN
  | .DOWN => .ACROSS

/-- Status of a square (xword.py `Status`). -/
inductive Status
  | NORMAL
  | PENCILLED_IN
  | MARKED_WRONG
  | MARKED_RIGHT
  | REVEALED
deriving DecidableEq, Repr

/-- A position in the grid, as (x, y) integer coordinates. -/
abbrev Pos := Int × Int

/-- The immutable part of a `Square` (xword.py line 489): its stored
coordinates and solution character.  The mutable guess/status is kept
in a separate `SquareState`. -/
structure Square where
  x : Int
  y : Int
  solution : Char
deriving DecidableEq, Repr

/-- The mutable part of a `Square`: guess and status. -/
structure SquareState where
  guess : Option Char
  status : Status
deriving DecidableEq, Repr

/-- A puzzle is the rectangular matrix of solution characters, row by
row; `.` marks a blocked cell.  `Puzzle.__init__` builds this matrix by
chunking `data.solution` into rows of length `data.width`. -/
structure Puzzle where
  rows : List (List Char)
deriving DecidableEq

/-- One row of the grid of optional squares, as built by the
comprehension in `Puzzle.__init__` (xword.py line 304): a `Square`
carrying its own coordinates for each unblocked entry, a hole for each
blocked one.  The first argument is the row index, the second the
column index of the first listed character. -/
def mkRowAux (y : Int) : Int → List Char → List (Option Square)
  | _, [] => []
  | x, c :: cs => (if c = '.' then none else some ⟨x, y, c⟩) :: mkRowAux y (x + 1) cs

/-- All rows of the grid of optional squares, starting at row index `y`. -/
def mkGridAux : Int → List (List Char) → List (List (Option Square))
  | _, [] => []
  | y, r :: rs => mkRowAux y 0 r :: mkGridAux (y + 1) rs

/-- The 2-D array of optional squares (`self.grid`). -/
def Puzzle.grid (p : Puzzle) : List (List (Option Square)) := mkGridAux 0 p.rows

/-- `self.width = len(self.grid[0])` (xword.py line 308). -/
def Puzzle.width (p : Puzzle) : Nat := (p.grid.headD []).length

/-- `self.height = len(self.grid)` (xword.py line 309). -/
def Puzzle.height (p : Puzzle) : Nat := p.grid.length

/-- `self.displayed_width = self.width * 4 + 1` (xword.py line 310). -/
def Puzzle.displayed_width (p : Puzzle) : Nat := p.width * 4 + 1

/-- `self.displayed_height = self.height * 2 + 1` (xword.py line 311). -/
def Puzzle.displayed_height (p : Puzzle) : Nat := p.height * 2 + 1

/-- Translation of `Puzzle.get_square` (xword.py line 357): raises
`IndexError` (modelled as `Except.error`) unless
`0 <= x < width and 0 <= y < height`, otherwise returns the grid entry,
which is `none` exactly at a blocked position. -/
def Puzzle.get_square (p : Puzzle) (x y : Int) : Except Unit (Option Square) :=
  if 0 ≤ x ∧ x < (p.width : Int) ∧ 0 ≤ y ∧ y < (p.height : Int) then
    .ok ((((p.grid.get? y.toNat).getD []).get? x.toNat).join)
  else
    .error ()

/-- The grid entry at (x, y), or `none` when out of range or blocked:
the in-range payload of `get_square`, used wherever the Python code
indexes the grid at coordinates it knows to be valid. -/
def Puzzle.cellAt (p : Puzzle) (x y : Int) : Option Square :=
  if 0 ≤ x ∧ 0 ≤ y then (((p.grid.get? y.toNat).getD []).get? x.toNat).join else none

/-- Whether there is an unblocked square at (x, y). -/
def Puzzle.isCell (p : Puzzle) (x y : Int) : Bool := (p.cellAt x y).isSome

/-- The raw solution character stored at (x, y), straight from the
input matrix. -/
def Puzzle.solutionAt (p : Puzzle) (x y : Int) : Option Char :=
  if 0 ≤ x ∧ 0 ≤ y then (p.rows.get? y.toNat).bind (fun r => r.get? x.toNat) else none

/-- Modelled from the spec: a cell starts a row-direction run iff it is
unblocked and its left neighbour is blocked or the grid edge
(run-discovery step of the numbering algorithm, performed in the Python
program by the external puz library). -/
def Puzzle.startsAcross (p : Puzzle) (x y : Int) : Bool :=
  p.isCell x y && !(p.isCell (x - 1) y)

/-- Modelled from the spec: a cell starts a column-direction run iff it
is unblocked and its upper neighbour is blocked or the grid edge. -/
def Puzzle.startsDown (p : Puzzle) (x y : Int) : Bool :=
  p.isCell x y && !(p.isCell x (y - 1))

/-- Whether the cell at `q` starts a run in direction `d`. -/
def Puzzle.startsDir (p : Puzzle) (d : Direction) (q : Pos) : Bool :=
  match d with
  | .ACROSS => p.startsAcross q.1 q.2
  | .DOWN => p.startsDown q.1 q.2

/-- All grid positions in row-major (y, x) order. -/
def Puzzle.allPositions (p : Puzzle) : List Pos :=
  (List.range p.height).flatMap fun y =>
    (List.range p.width).map fun x => (Int.ofNat x, Int.ofNat y)

/-- Modelled from the spec: the run-start cells in row-major order; the
clue number of the i-th entry is i + 1, and a cell that starts runs in
both directions appears once, so both its runs share one number. -/
def Puzzle.numberedStarts (p : Puzzle) : List Pos :=
  p.allPositions.filter fun q => p.startsAcross q.1 q.2 || p.startsDown q.1 q.2

/-- Translation of `Square.clue_number` (xword.py line 516) over the
spec-modelled numbering: the 1-based position of a run-start cell in
the row-major start order, `none` for a cell that starts no run. -/
def Puzzle.clue_number (p : Puzzle) (q : Pos) : Option Nat :=
  (p.numberedStarts.findIdx? (fun r => r = q)).map (· + 1)

/-- The next position one step further in direction `d`. -/
def Pos.step (d : Direction) (q : Pos) : Pos :=
  match d with
  | .ACROSS => (q.1 + 1, q.2)
  | .DOWN => (q.1, q.2 + 1)

/-- Modelled from the spec: the maximal run of unblocked cells in
direction `d` beginning at `q` (walks while the cell is unblocked; the
fuel argument is an upper bound on the run length). -/
def Puzzle.runFrom (p : Puzzle) (d : Direction) : Pos → Nat → List Pos
  | _, 0 => []
  | q, n + 1 => if p.isCell q.1 q.2 then q :: p.runFrom d (Pos.step d q) n else []

/-- Fuel that is ample for any run: no run is longer than
`width + height`. -/
def Puzzle.fuel (p : Puzzle) : Nat := p.width + p.height

/-- Modelled from the spec: the words (runs) of direction `d`, in clue
number order — i.e. in row-major order of their start cells, which is
exactly the order of the `numbering.across` / `numbering.down` entries
that `Puzzle.__init__` iterates (xword.py lines 313 to 326). -/
def Puzzle.words (p : Puzzle) (d : Direction) : List (List Pos) :=
  (p.numberedStarts.filter (p.startsDir d)).map fun s => p.runFrom d s p.fuel

/-- The flattened square order of direction `d`: the concatenation of
that direction's words.  The linking loop of `Puzzle.__init__`
(xword.py lines 329 to 342) installs `next[d]` / `prev[d]` pointers
that walk exactly this list, without stopping at word boundaries. -/
def Puzzle.chain (p : Puzzle) (d : Direction) : List Pos :=
  (p.words d).flatMap id

/-- Translation of `Puzzle.first_square` (xword.py line 376):
`self.words[direction][0][0]`. -/
def Puzzle.first_square (p : Puzzle) (d : Direction) : Option Pos :=
  (p.words d).head?.bind List.head?

/-- Translation of `Puzzle.last_square` (xword.py line 379):
`self.words[direction][-1][-1]`. -/
def Puzzle.last_square (p : Puzzle) (d : Direction) : Option Pos :=
  (p.words d).getLast?.bind List.getLast?

/-- The solution string spelled by a word. -/
def Puzzle.wordSolution (p : Puzzle) (w : List Pos) : String :=
  String.mk (w.filterMap fun q => (p.cellAt q.1 q.2).map Square.solution)

/-- The 7x7 test puzzle of test.py (test.puz). -/
def testPuzzle : Puzzle :=
  ⟨[".RACED.".toList, "BELARUS".toList, "LABTECH".toList, "ALE.CHE".toList,
    "KIRSTIE".toList, "ESTREET".toList, ".MAIDS.".toList]⟩

/-- A cursor: current square (by position) and active direction
(xword.py `Cursor.__init__`, line 587; the puzzle is passed
separately). -/
structure Cursor where
  pos : Pos
  dir : Direction
deriving DecidableEq, Repr

/-- The `next` pointer installed by the linking loop of
`Puzzle.__init__`: the successor of (the first occurrence of) `q` in
the flattened square order `ch`, `none` for the last square. -/
def nextIn (ch : List Pos) (q : Pos) : Option Pos :=
  match ch with
  | [] => none
  | a :: rest => if a = q then rest.head? else nextIn rest q

/-- The `prev` pointer installed by the linking loop of
`Puzzle.__init__`: the predecessor of `q` in the flattened square
order, `none` for the first square. -/
def prevIn (ch : List Pos) (q : Pos) : Option Pos :=
  match ch with
  | [] => none
  | [_] => none
  | a :: b :: rest => if b = q then some a else prevIn (b :: rest) q

/-- One while loop of `Cursor.next_squares` / `Cursor.prev_squares`:
starting from an optional square, repeatedly yield the square and step
through the given pointer function until `none`.  The fuel argument
bounds the number of yields; every use supplies fuel at least the
chain length, which a lemma below shows is never exhausted. -/
def walkBy (f : Pos → Option Pos) : Option Pos → Nat → List Pos
  | _, 0 => []
  | none, _ => []
  | some q, n + 1 => q :: walkBy f (f q) n

/-- The guarded loop at the end of `Cursor.next_squares` /
`Cursor.prev_squares`: like `walkBy` but stopping (without yielding)
upon reaching `stop`.  Reaching `none` instead would fail the
`assert square is not None` in the source; it is modelled as
stopping. -/
def walkByUntil (f : Pos → Option Pos) (stop : Pos) : Option Pos → Nat → List Pos
  | _, 0 => []
  | none, _ => []
  | some q, n + 1 => if q = stop then [] else q :: walkByUntil f stop (f q) n

/-- Translation of `Cursor.next_squares` (xword.py lines 626 to 640):
three pointer-walking loops — the squares after the current one along
the active direction's chain, then the whole other-direction chain
from its first square, then the active chain from its first square up
to (excluding) the current square. -/
def Puzzle.next_squares (p : Puzzle) (c : Cursor) : List (Pos × Direction) :=
  let ch := p.chain c.dir
  let ch2 := p.chain c.dir.other
  let n := ch.length + ch2.length + 1
  (walkBy (nextIn ch) (nextIn ch c.pos) n).map (fun q => (q, c.dir)) ++
  (walkBy (nextIn ch2) (p.first_square c.dir.other) n).map (fun q => (q, c.dir.other)) ++
  (walkByUntil (nextIn ch) c.pos (p.first_square c.dir) n).map (fun q => (q, c.dir))

/-- Translation of `Cursor.prev_squares` (xword.py lines 642 to 656):
the mirror image of `next_squares`, walking `prev` pointers from the
current square, then the other-direction chain from its last square,
then the active chain from its last square down to (excluding) the
current square. -/
def Puzzle.prev_squares (p : Puzzle) (c : Cursor) : List (Pos × Direction) :=
  let ch := p.chain c.dir
  let ch2 := p.chain c.dir.other
  let n := ch.length + ch2.length + 1
  (walkBy (prevIn ch) (prevIn ch c.pos) n).map (fun q => (q, c.dir)) ++
  (walkBy (prevIn ch2) (p.last_square c.dir.other) n).map (fun q => (q, c.dir.other)) ++
  (walkByUntil (prevIn ch) c.pos (p.last_square c.dir) n).map (fun q => (q, c.dir))

/-- Translation of `Cursor.go_to_next_square` (xword.py line 658) with
an explicit condition: the first pair of `next_squares` satisfying the
condition, or the unchanged cursor. -/
def Puzzle.go_to_next_square (p : Puzzle) (c : Cursor) (cond : Pos → Direction → Bool) : Cursor :=
  match (p.next_squares c).find? (fun qd => cond qd.1 qd.2) with
  | some qd => ⟨qd.1, qd.2⟩
  | none => c

/-- Translation of `Cursor.go_to_prev_square` (xword.py line 664). -/
def Puzzle.go_to_prev_square (p : Puzzle) (c : Cursor) (cond : Pos → Direction → Bool) : Cursor :=
  match (p.prev_squares c).find? (fun qd => cond qd.1 qd.2) with
  | some qd => ⟨qd.1, qd.2⟩
  | none => c

/-- `go_to_next_square` with its default `condition = None`: every pair
qualifies (the plain next-cell step). -/
def Puzzle.advance (p : Puzzle) (c : Cursor) : Cursor :=
  p.go_to_next_square c (fun _ _ => true)

/-- `go_to_prev_square` with its default `condition = None`. -/
def Puzzle.retreat (p : Puzzle) (c : Cursor) : Cursor :=
  p.go_to_prev_square c (fun _ _ => true)

/-- The word of direction `d` containing `q`: `square.word[direction]`.
The linking loop stores, for each square, the word whose cell list
contains it; for a square of the grid this word is unique. -/
def Puzzle.wordOf (p : Puzzle) (d : Direction) (q : Pos) : Option (List Pos) :=
  (p.words d).find? (fun w => q ∈ w)

/-- Translation of `Square.is_start` (xword.py line 504):
`self is self.word[direction][0]`.  A square with no word in the
direction (impossible for grid squares) counts as not a start. -/
def Puzzle.is_start (p : Puzzle) (d : Direction) (q : Pos) : Bool :=
  match p.wordOf d q with
  | some w => w.head? = some q
  | none => false

/-- Translation of `Square.is_end` (xword.py line 507):
`self is self.word[direction][-1]`. -/
def Puzzle.is_end (p : Puzzle) (d : Direction) (q : Pos) : Bool :=
  match p.wordOf d q with
  | some w => w.getLast? = some q
  | none => false

/-- The condition `lambda square, direction: square.is_start(direction)`
passed by `Cursor.w` and `Cursor.b` (xword.py lines 705 to 709). -/
def Puzzle.startCond (p : Puzzle) : Pos → Direction → Bool :=
  fun q d => p.is_start d q

/-- Translation of `Cursor.w` (xword.py line 705): jump to the first
pair of the forward traversal whose square starts its word in the
direction carried by the pair. -/
def Puzzle.wMotion (p : Puzzle) (c : Cursor) : Cursor :=
  p.go_to_next_square c p.startCond

/-- Translation of `Cursor.b` (xword.py line 708). -/
def Puzzle.bMotion (p : Puzzle) (c : Cursor) : Cursor :=
  p.go_to_prev_square c p.startCond

/-- The loop body of `Cursor.move` (xword.py lines 595 to 608): add
(dx, dy) to the coordinates; out of bounds returns the original
cursor, an unblocked square is the destination, and a blocked square
clamps (dx, dy) to its signs and continues.  The fuel argument bounds
the loop; `Cursor.move` below supplies fuel that the loop can never
exhaust, since after the first clamp each iteration moves the
coordinates monotonically towards the grid edge. -/
def Puzzle.moveAux (p : Puzzle) (c : Cursor) : Int → Int → Int → Int → Nat → Cursor
  | _, _, _, _, 0 => c
  | x, y, dx, dy, n + 1 =>
    let x' := x + dx
    let y' := y + dy
    match p.get_square x' y' with
    | .error _ => c
    | .ok (some sq) => ⟨(sq.x, sq.y), c.dir⟩
    | .ok none => p.moveAux c x' y' (sign dx) (sign dy) n

/-- Translation of `Cursor.move`. -/
def Puzzle.move (p : Puzzle) (c : Cursor) (dx dy : Int) : Cursor :=
  p.moveAux c c.pos.1 c.pos.2 dx dy (2 * (p.width + p.height) + 4)

/-- Translation of `Square.set` (xword.py lines 522 to 527): reject a
non-alphanumeric character with `ValueError` (modelled as
`Except.error`, before any state is touched); otherwise store the
upper-cased character as the guess, with status `PENCILLED_IN` exactly
when the typed character was upper case. -/
def setSquare (_st : SquareState) (ch : Char) : Except Unit SquareState :=
  if !ch.isAlphanum then .error ()
  else .ok ⟨some ch.toUpper, if ch.isUpper then Status.PENCILLED_IN else Status.NORMAL⟩

/-- Translation of `Square.unset` (xword.py line 529). -/
def unsetSquare (_st : SquareState) : SquareState := ⟨none, Status.NORMAL⟩

/-- The mutable guess/status state of the whole grid, by position. -/
abbrev Fill := Pos → SquareState

/-- The empty fill: no guesses, all statuses normal. -/
def emptyFill : Fill := fun _ => ⟨none, Status.NORMAL⟩

/-- Translation of `Cursor.type` (xword.py lines 779 to 785): try to
set the current square; on `ValueError` return the cursor (and the
fill) unchanged, otherwise advance by the plain next-cell step. -/
def Puzzle.typeChar (p : Puzzle) (fill : Fill) (c : Cursor) (ch : Char) : Cursor × Fill :=
  match setSquare (fill c.pos) ch with
  | .error _ => (c, fill)
  | .ok st => (p.advance c, fun q => if q = c.pos then st else fill q)

/-- Translation of `Cursor.displayed_coords` (xword.py line 792). -/
def Cursor.displayed_coords (c : Cursor) : Int × Int :=
  (2 + c.pos.1 * 4, 1 + c.pos.2 * 2)

/-- The vertex/edge shapes of the box-drawing renderer (xword.py
`Shape`). -/
inductive Shape
  | DOWN_AND_RIGHT
  | DOWN_AND_HORIZONTAL
  | DOWN_AND_LEFT
  | VERTICAL_AND_RIGHT
  | VERTICAL_AND_HORIZONTAL
  | VERTICAL_AND_LEFT
  | UP_AND_RIGHT
  | UP_AND_HORIZONTAL
  | UP_AND_LEFT
  | HORIZONTAL
  | VERTICAL
  | NONE
deriving DecidableEq, Repr

/-- Translation of the `BOX_DRAWING_CHARS` table (xword.py lines 50 to
84), keyed by structural shape then emphasis shape.  Combinations
absent from the table would raise `KeyError` in Python and are mapped
to `?` here; the renderer never produces them. -/
def boxChar : Shape → Shape → Char
  | .DOWN_AND_RIGHT, .NONE => '┌'
  | .DOWN_AND_RIGHT, .DOWN_AND_RIGHT => '┏'
  | .DOWN_AND_HORIZONTAL, .NONE => '┬'
  | .DOWN_AND_HORIZONTAL, .DOWN_AND_RIGHT => '┲'
  | .DOWN_AND_HORIZONTAL, .DOWN_AND_LEFT => '┱'
  | .DOWN_AND_HORIZONTAL, .HORIZONTAL => '┯'
  | .DOWN_AND_LEFT, .NONE => '┐'
  | .DOWN_AND_LEFT, .DOWN_AND_LEFT => '┓'
  | .VERTICAL_AND_RIGHT, .NONE => '├'
  | .VERTICAL_AND_RIGHT, .DOWN_AND_RIGHT => '┢'
  | .VERTICAL_AND_RIGHT, .UP_AND_RIGHT => '┡'
  | .VERTICAL_AND_RIGHT, .VERTICAL => '┠'
  | .VERTICAL_AND_HORIZONTAL, .NONE => '┼'
  | .VERTICAL_AND_HORIZONTAL, .DOWN_AND_RIGHT => '╆'
  | .VERTICAL_AND_HORIZONTAL, .DOWN_AND_LEFT => '╅'
  | .VERTICAL_AND_HORIZONTAL, .UP_AND_RIGHT => '╄'
  | .VERTICAL_AND_HORIZONTAL, .UP_AND_LEFT => '╃'
  | .VERTICAL_AND_HORIZONTAL, .HORIZONTAL => '┿'
  | .VERTICAL_AND_HORIZONTAL, .VERTICAL => '╂'
  | .VERTICAL_AND_LEFT, .NONE => '┤'
  | .VERTICAL_AND_LEFT, .DOWN_AND_LEFT => '┪'
  | .VERTICAL_AND_LEFT, .UP_AND_LEFT => '┩'
  | .VERTICAL_AND_LEFT, .VERTICAL => '┨'
  | .UP_AND_RIGHT, .NONE => '└'
  | .UP_AND_RIGHT, .UP_AND_RIGHT => '┗'
  | .UP_AND_HORIZONTAL, .NONE => '┴'
  | .UP_AND_HORIZONTAL, .UP_AND_RIGHT => '┺'
  | .UP_AND_HORIZONTAL, .UP_AND_LEFT => '┹'
  | .UP_AND_HORIZONTAL, .HORIZONTAL => '┷'
  | .UP_AND_LEFT, .NONE => '┘'
  | .UP_AND_LEFT, .UP_AND_LEFT => '┛'
  | .HORIZONTAL, .NONE => '─'
  | .HORIZONTAL, .HORIZONTAL => '━'
  | .VERTICAL, .NONE => '│'
  | .VERTICAL, .VERTICAL => '┃'
  | _, _ => '?'

/-- Translation of `term.bold` (term.py line 66). -/
def bold (s : String) : String := "\x1b[1m" ++ s ++ "\x1b[22m"

/-- Translation of `term.dim` (term.py line 69). -/
def dim (s : String) : String := "\x1b[2m" ++ s ++ "\x1b[22m"

/-- Translation of `term.red` (term.py line 72). -/
def red (s : String) : String := "\x1b[31m" ++ s ++ "\x1b[39m"

/-- Translation of `term.green` (term.py line 75). -/
def green (s : String) : String := "\x1b[32m" ++ s ++ "\x1b[39m"

/-- Modelled from the spec: `Square.render` colours a revealed square
via `term.blue`, which is missing from the term module in this
snapshot; it is modelled on the pattern of the other colours
(foreground colour escape around the text). -/
def blue (s : String) : String := "\x1b[34m" ++ s ++ "\x1b[39m"

/-- The character shown for a square: the guess if filled, else a
space (xword.py line 546). -/
def guessStr (og : Option Char) : String :=
  match og with
  | some g => String.mk [g]
  | none => " "

/-- The status decoration applied to the shown character (xword.py
lines 548 to 555). -/
def decorate (stat : Status) (s : String) : String :=
  match stat with
  | Status.PENCILLED_IN => dim s
  | Status.MARKED_WRONG => red s
  | Status.MARKED_RIGHT => green s
  | Status.REVEALED => blue s
  | Status.NORMAL => s

/-- Translation of `Square.render` (xword.py lines 545 to 556) as a
function of the square's mutable state: the guess (or a space)
decorated according to the status, in a 3-character field. -/
def renderSquare (st : SquareState) : String :=
  " " ++ decorate st.status (guessStr st.guess) ++ " "

/-- Whether the row matrix is rectangular: every row has the width of
the first one.  `Puzzle.__init__` guarantees this by chunking the flat
solution string into rows of equal length. -/
def Puzzle.rect (p : Puzzle) : Prop := ∀ r ∈ p.rows, r.length = p.width

instance (p : Puzzle) : Decidable p.rect := by
  unfold Puzzle.rect
  infer_instance

theorem mkRowAux_length (y x₀ : Int) (cs : List Char) :
    (mkRowAux y x₀ cs).length = cs.length := by
  induction cs generalizing x₀ with
  | nil => rfl
  | cons c cs ih => simp [mkRowAux, ih]

theorem mkGridAux_length (y₀ : Int) (rs : List (List Char)) :
    (mkGridAux y₀ rs).length = rs.length := by
  induction rs generalizing y₀ with
  | nil => rfl
  | cons r rs ih => simp [mkGridAux, ih]

theorem Puzzle.height_eq (p : Puzzle) : p.height = p.rows.length :=
  mkGridAux_length 0 p.rows

theorem mkRowAux_get? (y x₀ : Int) (cs : List Char) (i : Nat) :
    (mkRowAux y x₀ cs).get? i =
      (cs.get? i).map (fun ch => if ch = '.' then none else some ⟨x₀ + i, y, ch⟩) := by
  induction cs generalizing x₀ i with
  | nil => simp [mkRowAux]
  | cons c cs ih =>
    cases i with
    | zero => simp [mkRowAux]
    | succ j =>
      have h := ih (x₀ + 1) j
      simp only [mkRowAux, List.get?_cons_succ, h]
      have : x₀ + 1 + (j : Int) = x₀ + ((j : Nat) + 1 : Nat) := by push_cast; ring
      rw [this]

theorem mkGridAux_get? (y₀ : Int) (rs : List (List Char)) (j : Nat) :
    (mkGridAux y₀ rs).get? j = (rs.get? j).map (fun r => mkRowAux (y₀ + j) 0 r) := by
  induction rs generalizing y₀ j with
  | nil => simp [mkGridAux]
  | cons r rs ih =>
    cases j with
    | zero => simp [mkGridAux]
    | succ i =>
      have h := ih (y₀ + 1) i
      simp only [mkGridAux, List.get?_cons_succ, h]
      have : y₀ + 1 + (i : Int) = y₀ + ((i : Nat) + 1 : Nat) := by push_cast; ring
      rw [this]

/-- The grid entry at nonnegative coordinates is the solution character
reinterpreted: a hole at a `.`, otherwise a square carrying exactly the
queried coordinates. -/
theorem Puzzle.cellAt_eq (p : Puzzle) (x y : Int) (hx : 0 ≤ x) (hy : 0 ≤ y) :
    p.cellAt x y =
      (p.solutionAt x y).bind
        (fun ch => if ch = '.' then none else some ⟨x, y, ch⟩) := by
  unfold Puzzle.cellAt Puzzle.solutionAt Puzzle.grid
  rw [if_pos ⟨hx, hy⟩, if_pos ⟨hx, hy⟩, mkGridAux_get? 0 p.rows y.toNat]
  cases h : p.rows.get? y.toNat with
  | none => simp
  | some r =>
    simp only [Option.map_some', Option.getD_some, Option.some_bind]
    rw [mkRowAux_get? _ 0 r x.toNat]
    cases h2 : r.get? x.toNat with
    | none => simp
    | some ch =>
      simp only [Option.map_some', Option.join]
      have hx2 : (0 : Int) + (x.toNat : Int) = x := by
        simp [Int.toNat_of_nonneg hx]
      have hy2 : (0 : Int) + (y.toNat : Int) = y := by
        simp [Int.toNat_of_nonneg hy]
      rw [hx2, hy2]
      by_cases hc : ch = '.' <;> simp [hc]

/-- In bounds, `get_square` returns the grid entry; its guard implies
the `cellAt` guard. -/
theorem Puzzle.get_square_in_bounds (p : Puzzle) (x y : Int)
    (h : 0 ≤ x ∧ x < (p.width : Int) ∧ 0 ≤ y ∧ y < (p.height : Int)) :
    p.get_square x y = .ok (p.cellAt x y) := by
  unfold Puzzle.get_square Puzzle.cellAt
  rw [if_pos h, if_pos ⟨h.1, h.2.2.1⟩]

theorem Puzzle.get_square_out_of_bounds (p : Puzzle) (x y : Int)
    (h : ¬(0 ≤ x ∧ x < (p.width : Int) ∧ 0 ≤ y ∧ y < (p.height : Int))) :
    p.get_square x y = .error () := by
  unfold Puzzle.get_square
  rw [if_neg h]

theorem Puzzle.width_eq (p : Puzzle) : p.width = (p.rows.headD []).length := by
  unfold Puzzle.width Puzzle.grid
  cases p.rows with
  | nil => rfl
  | cons r rs => simp [mkGridAux, mkRowAux_length]

theorem Puzzle.cellAt_coords (p : Puzzle) (x y : Int) (sq : Square)
    (h : p.cellAt x y = some sq) : sq.x = x ∧ sq.y = y := by
  by_cases hx : 0 ≤ x
  · by_cases hy : 0 ≤ y
    · rw [p.cellAt_eq x y hx hy] at h
      cases hch : p.solutionAt x y with
      | none => rw [hch] at h; simp at h
      | some ch =>
        rw [hch] at h
        simp only [Option.some_bind] at h
        by_cases hc : ch = '.'
        · rw [if_pos hc] at h; simp at h
        · rw [if_neg hc] at h
          cases h
          exact ⟨rfl, rfl⟩
    · unfold Puzzle.cellAt at h
      rw [if_neg (by tauto)] at h
      simp at h
  · unfold Puzzle.cellAt at h
    rw [if_neg (by tauto)] at h
    simp at h

theorem Puzzle.get_square_ok_coords (p : Puzzle) (x y : Int) (sq : Square)
    (h : p.get_square x y = .ok (some sq)) : sq.x = x ∧ sq.y = y := by
  by_cases hb : 0 ≤ x ∧ x < (p.width : Int) ∧ 0 ≤ y ∧ y < (p.height : Int)
  · rw [p.get_square_in_bounds x y hb] at h
    exact p.cellAt_coords x y sq (by injection h)
  · rw [p.get_square_out_of_bounds x y hb] at h
    exact absurd h (by simp)

theorem find?_always_true {α : Type} (l : List α) :
    l.find? (fun _ => true) = l.head? := by
  cases l <;> simp [List.find?]

theorem Puzzle.moveAux_spec (p : Puzzle) (c : Cursor) :
    ∀ (n : Nat) (x y dx dy : Int),
      (p.moveAux c x y dx dy n).dir = c.dir ∧
      (p.moveAux c x y dx dy n = c ∨
        ∃ sq, p.get_square (p.moveAux c x y dx dy n).pos.1
          (p.moveAux c x y dx dy n).pos.2 = .ok (some sq)) := by
  intro n
  induction n with
  | zero => exact fun x y dx dy => ⟨rfl, Or.inl rfl⟩
  | succ m ih =>
    intro x y dx dy
    simp only [Puzzle.moveAux]
    cases hgs : p.get_square (x + dx) (y + dy) with
    | error e => exact ⟨rfl, Or.inl rfl⟩
    | ok osq =>
      cases osq with
      | none => exact ih (x + dx) (y + dy) (sign dx) (sign dy)
      | some sq =>
        refine ⟨rfl, Or.inr ⟨sq, ?_⟩⟩
        obtain ⟨hx, hy⟩ := p.get_square_ok_coords _ _ _ hgs
        simpa [hx, hy] using hgs

/-- Claim C2: `move(dx, dy)` repeats the clamped step until it finds an
unblocked in-bounds square, returning a cursor there with the
direction unchanged, and returns the original cursor unchanged when
the grid edge is passed (it never raises: the fuelled loop always
lands in one of those two outcomes).  Concretely, on the 7x7 test
grid, from (2, 3) in the row direction `move(-1, 0)` lands on (1, 3)
and `move(1, 0)` lands on (4, 3), skipping the blocked (3, 3). -/
theorem claim_C2 :
    (∀ (p : Puzzle) (c : Cursor) (dx dy : Int),
      (p.move c dx dy).dir = c.dir ∧
      (p.move c dx dy = c ∨
        ∃ sq, p.get_square (p.move c dx dy).pos.1 (p.move c dx dy).pos.2 =
          .ok (some sq))) ∧
    testPuzzle.move ⟨(2, 3), .ACROSS⟩ (-1) 0 = ⟨(1, 3), .ACROSS⟩ ∧
    testPuzzle.move ⟨(2, 3), .ACROSS⟩ 1 0 = ⟨(4, 3), .ACROSS⟩ :=
  ⟨fun p c dx dy => p.moveAux_spec c _ c.pos.1 c.pos.2 dx dy, by decide, by decide⟩

/-- Claim C3 counterexample: the claim places the row-run `CHE` at
column-index 1, row-index 3 with clue number 7, but no row-direction
run starts at (1, 3): that cell is the interior of `ALE` (clue 9), its
clue number is `none`, and no across word starts there.  (`CHE`
actually starts at (4, 3) with clue number 10, as the amended theorem
shows.) -/
theorem claim_C3_counterexample :
    testPuzzle.startsAcross 1 3 = false ∧
    testPuzzle.clue_number (1, 3) = none ∧
    (testPuzzle.words .ACROSS).all (fun w => w.head? ≠ some ((1 : Int), (3 : Int))) = true ∧
    testPuzzle.wordOf .ACROSS (1, 3) = some [(0, 3), (1, 3), (2, 3)] ∧
    testPuzzle.wordSolution [(0, 3), (1, 3), (2, 3)] = "ALE" := by
  decide

/-- Claim C3 (amended): on the 7x7 test grid the row-direction runs
are RACED, BELARUS, LABTECH, ALE, CHE, KIRSTIE, ESTREET, MAIDS and the
column-direction runs are REALISM, ALBERTA, CAT, ERECTED, DUCHIES,
BLAKE, SHEET, SRI; clue numbers are assigned sequentially from 1 to
run-start cells in row-major order, with the dual-start cell (1, 0)
receiving the single shared number 1; and the row-run starting at
column-index 4, row-index 3 is CHE with clue number 10. -/
theorem claim_C3 :
    (testPuzzle.words .ACROSS).map testPuzzle.wordSolution =
      ["RACED", "BELARUS", "LABTECH", "ALE", "CHE", "KIRSTIE", "ESTREET", "MAIDS"] ∧
    (testPuzzle.words .DOWN).map testPuzzle.wordSolution =
      ["REALISM", "ALBERTA", "CAT", "ERECTED", "DUCHIES", "BLAKE", "SHEET", "SRI"] ∧
    (testPuzzle.words .ACROSS).map (fun w => w.head?.bind testPuzzle.clue_number) =
      [some 1, some 6, some 8, some 9, some 10, some 11, some 13, some 14] ∧
    (testPuzzle.words .DOWN).map (fun w => w.head?.bind testPuzzle.clue_number) =
      [some 1, some 2, some 3, some 4, some 5, some 6, some 7, some 12] ∧
    ((List.range testPuzzle.numberedStarts.length).all fun i =>
      testPuzzle.clue_number (testPuzzle.numberedStarts.getD i (0, 0)) = some (i + 1)) = true ∧
    testPuzzle.startsAcross 1 0 = true ∧
    testPuzzle.startsDown 1 0 = true ∧
    testPuzzle.clue_number (1, 0) = some 1 ∧
    testPuzzle.startsAcross 4 3 = true ∧
    testPuzzle.wordOf .ACROSS (4, 3) = some [(4, 3), (5, 3), (6, 3)] ∧
    testPuzzle.wordSolution [(4, 3), (5, 3), (6, 3)] = "CHE" ∧
    testPuzzle.clue_number (4, 3) = some 10 := by
  decide

/-- Claim C7: `get_square(x, y)` raises exactly outside the bounds
`0 <= x < width`, `0 <= y < height`; in bounds (on a rectangular
matrix) it returns no cell exactly at a blocked position, and any cell
it returns stores exactly the queried coordinates, so blocked-but-in-
bounds and out-of-bounds are never confused. -/
theorem claim_C7 (p : Puzzle) (hrect : p.rect) (x y : Int) :
    ((∃ e, p.get_square x y = .error e) ↔
      ¬(0 ≤ x ∧ x < (p.width : Int) ∧ 0 ≤ y ∧ y < (p.height : Int))) ∧
    (0 ≤ x ∧ x < (p.width : Int) ∧ 0 ≤ y ∧ y < (p.height : Int) →
      (p.get_square x y = .ok none ↔ p.solutionAt x y = some '.')) ∧
    (∀ sq, p.get_square x y = .ok (some sq) → sq.x = x ∧ sq.y = y) := by
  refine ⟨?_, ?_, fun sq h => p.get_square_ok_coords x y sq h⟩
  · by_cases hb : 0 ≤ x ∧ x < (p.width : Int) ∧ 0 ≤ y ∧ y < (p.height : Int)
    · rw [p.get_square_in_bounds x y hb]
      simp [hb]
    · rw [p.get_square_out_of_bounds x y hb]
      simp [hb]
  · intro hb
    rw [p.get_square_in_bounds x y hb, p.cellAt_eq x y hb.1 hb.2.2.1]
    have hy : y.toNat < p.rows.length := by
      have := hb.2.2.2
      rw [p.height_eq] at this
      omega
    obtain ⟨r, hr⟩ : ∃ r, p.rows.get? y.toNat = some r := by
      cases h : p.rows.get? y.toNat with
      | none => rw [List.get?_eq_none] at h; omega
      | some r => exact ⟨r, rfl⟩
    have hrw : r.length = p.width := hrect r (List.get?_mem hr)
    have hx : x.toNat < r.length := by
      have := hb.2.1
      omega
    obtain ⟨ch, hch⟩ : ∃ ch, r.get? x.toNat = some ch := by
      cases h : r.get? x.toNat with
      | none => rw [List.get?_eq_none] at h; omega
      | some ch => exact ⟨ch, rfl⟩
    have hsol : p.solutionAt x y = some ch := by
      unfold Puzzle.solutionAt
      rw [if_pos ⟨hb.1, hb.2.2.1⟩, hr]
      exact hch
    rw [hsol]
    simp only [Option.some_bind]
    by_cases hc : ch = '.'
    · simp [hc]
    · simp [hc]

/-- Claim C7 witness: concrete instances on the 7x7 test grid —
(7, 6) is out of bounds, (3, 3) is blocked-but-in-bounds, and the cell
returned at (2, 3) stores coordinates (2, 3). -/
theorem claim_C7_witness :
    testPuzzle.rect ∧
    (¬(0 ≤ (7 : Int) ∧ (7 : Int) < (testPuzzle.width : Int) ∧ 0 ≤ (6 : Int) ∧
        (6 : Int) < (testPuzzle.height : Int)) → ∃ e, testPuzzle.get_square 7 6 = .error e) ∧
    ((0 ≤ (3 : Int) ∧ (3 : Int) < (testPuzzle.width : Int) ∧ 0 ≤ (3 : Int) ∧
        (3 : Int) < (testPuzzle.height : Int)) →
      (testPuzzle.get_square 3 3 = .ok none ↔ testPuzzle.solutionAt 3 3 = some '.')) ∧
    (∀ sq, testPuzzle.get_square 2 3 = .ok (some sq) → sq.x = 2 ∧ sq.y = 3) :=
  ⟨by decide,
   fun h => ((claim_C7 testPuzzle (by decide) 7 6).1).mpr h,
   (claim_C7 testPuzzle (by decide) 3 3).2.1,
   (claim_C7 testPuzzle (by decide) 2 3).2.2⟩

/-- Claim C6: `Square.set` rejects exactly the non-alphanumeric
characters (raising before any state is touched, so guess and status
are unchanged) and on success stores the upper-cased character;
`Cursor.type` on invalid input returns the cursor with the fill
untouched and no advance, and on valid input writes the guess at the
current square and advances to the first pair of the plain next-cell
traversal. -/
theorem claim_C6 :
    (∀ (st : SquareState) (ch : Char), setSquare st ch = .error () ↔ ¬ch.isAlphanum) ∧
    (∀ (st : SquareState) (ch : Char), ch.isAlphanum →
      setSquare st ch =
        .ok ⟨some ch.toUpper, if ch.isUpper then Status.PENCILLED_IN else Status.NORMAL⟩) ∧
    (∀ (p : Puzzle) (fill : Fill) (c : Cursor) (ch : Char), ¬ch.isAlphanum →
      p.typeChar fill c ch = (c, fill)) ∧
    (∀ (p : Puzzle) (fill : Fill) (c : Cursor) (ch : Char), ch.isAlphanum →
      (p.typeChar fill c ch).1 = p.advance c ∧
      (p.typeChar fill c ch).2 c.pos =
        ⟨some ch.toUpper, if ch.isUpper then Status.PENCILLED_IN else Status.NORMAL⟩ ∧
      ∀ q, q ≠ c.pos → (p.typeChar fill c ch).2 q = fill q) ∧
    (∀ (p : Puzzle) (c : Cursor),
      p.advance c =
        match (p.next_squares c).head? with
        | some qd => ⟨qd.1, qd.2⟩
        | none => c) := by
  refine ⟨?_, ?_, ?_, ?_, ?_⟩
  · intro st ch
    by_cases h : ch.isAlphanum <;> simp [setSquare, h]
  · intro st ch h
    simp [setSquare, h]
  · intro p fill c ch h
    simp [Puzzle.typeChar, setSquare, h]
  · intro p fill c ch h
    refine ⟨?_, ?_, ?_⟩
    · simp [Puzzle.typeChar, setSquare, h]
    · simp [Puzzle.typeChar, setSquare, h]
    · intro q hq
      simp [Puzzle.typeChar, setSquare, h, hq]
  · intro p c
    unfold Puzzle.advance Puzzle.go_to_next_square
    rw [find?_always_true]

/-- Claim C6 witness: typing the non-alphanumeric `!` at (1, 0) leaves
cursor and fill unchanged, and typing `s` there writes guess `S` and
advances by the plain next-cell step. -/
theorem claim_C6_witness :
    (¬Char.isAlphanum '!' ∧
      testPuzzle.typeChar emptyFill ⟨(1, 0), .ACROSS⟩ '!' = (⟨(1, 0), .ACROSS⟩, emptyFill)) ∧
    (Char.isAlphanum 's' ∧
      (testPuzzle.typeChar emptyFill ⟨(1, 0), .ACROSS⟩ 's').1 =
        testPuzzle.advance ⟨(1, 0), .ACROSS⟩ ∧
      (testPuzzle.typeChar emptyFill ⟨(1, 0), .ACROSS⟩ 's').2 ((1, 0) : Pos) =
        ⟨some 'S', Status.NORMAL⟩) :=
  ⟨⟨by decide, claim_C6.2.2.1 testPuzzle emptyFill ⟨(1, 0), .ACROSS⟩ '!' (by decide)⟩,
   ⟨by decide,
    (claim_C6.2.2.2.1 testPuzzle emptyFill ⟨(1, 0), .ACROSS⟩ 's' (by decide)).1,
    (claim_C6.2.2.2.1 testPuzzle emptyFill ⟨(1, 0), .ACROSS⟩ 's' (by decide)).2.1⟩⟩

/-- Claim C10: for every alphanumeric character the stored guess is the
upper-cased form, and the status becomes `PENCILLED_IN` exactly when
the typed character itself is upper case (lower-case letters and
digits give `NORMAL`). -/
theorem claim_C10 :
    ∀ (st : SquareState) (ch : Char), ch.isAlphanum →
      setSquare st ch =
        .ok ⟨some ch.toUpper, if ch.isUpper then Status.PENCILLED_IN else Status.NORMAL⟩ ∧
      ∀ stNew, setSquare st ch = .ok stNew →
        ((stNew.status = Status.PENCILLED_IN) ↔ ch.isUpper) := by
  intro st ch h
  refine ⟨by simp [setSquare, h], ?_⟩
  intro stNew hset
  simp only [setSquare, h, Bool.not_true] at hset
  simp only [Bool.false_eq_true, if_false] at hset
  injection hset with hst
  subst hst
  by_cases hu : ch.isUpper <;> simp [hu]

/-- Claim C10 witness: typing upper-case `S` pencils in `S`, typing
lower-case `e` writes `E` with normal status, and typing the digit `5`
writes `5` with normal status. -/
theorem claim_C10_witness :
    (Char.isAlphanum 'S' ∧
      setSquare ⟨none, Status.NORMAL⟩ 'S' = .ok ⟨some 'S', Status.PENCILLED_IN⟩) ∧
    (Char.isAlphanum 'e' ∧
      setSquare ⟨none, Status.NORMAL⟩ 'e' = .ok ⟨some 'E', Status.NORMAL⟩) ∧
    (Char.isAlphanum '5' ∧
      setSquare ⟨none, Status.NORMAL⟩ '5' = .ok ⟨some '5', Status.NORMAL⟩) :=
  ⟨⟨by decide, by
      have h := (claim_C10 ⟨none, Status.NORMAL⟩ 'S' (by decide)).1
      simpa using h⟩,
   ⟨by decide, by
      have h := (claim_C10 ⟨none, Status.NORMAL⟩ 'e' (by decide)).1
      simpa using h⟩,
   ⟨by decide, by
      have h := (claim_C10 ⟨none, Status.NORMAL⟩ '5' (by decide)).1
      simpa using h⟩⟩

theorem nextIn_not_mem (ch : List Pos) (q : Pos) (h : q ∉ ch) : nextIn ch q = none := by
  induction ch with
  | nil => rfl
  | cons a rest ih =>
    have ha : a ≠ q := fun he => h (he ▸ List.mem_cons_self a rest)
    simp only [nextIn, if_neg ha]
    exact ih (fun hm => h (List.mem_cons_of_mem a hm))

theorem nextIn_append (l₁ l₂ : List Pos) (q : Pos) (hnd : (l₁ ++ q :: l₂).Nodup) :
    nextIn (l₁ ++ q :: l₂) q = l₂.head? := by
  induction l₁ with
  | nil => simp [nextIn]
  | cons a l₁ ih =>
    have ha : a ≠ q := by
      have := (List.nodup_cons.mp hnd).1
      intro he
      exact this (by simp [he])
    simp only [List.cons_append, nextIn, if_neg ha]
    exact ih (List.nodup_cons.mp hnd).2

theorem walkBy_none (f : Pos → Option Pos) (n : Nat) : walkBy f none n = [] := by
  cases n <;> rfl

theorem walkByUntil_none (f : Pos → Option Pos) (stop : Pos) (n : Nat) :
    walkByUntil f stop none n = [] := by
  cases n <;> rfl

theorem walkBy_split (l₂ : List Pos) :
    ∀ (l₁ : List Pos) (q : Pos) (n : Nat), (l₁ ++ q :: l₂).Nodup → l₂.length + 1 ≤ n →
      walkBy (nextIn (l₁ ++ q :: l₂)) (some q) n = q :: l₂ := by
  induction l₂ with
  | nil =>
    intro l₁ q n hnd hn
    simp only [List.length_nil] at hn
    obtain ⟨m, rfl⟩ : ∃ m, n = m + 1 := ⟨n - 1, by omega⟩
    simp only [walkBy, nextIn_append l₁ [] q hnd, List.head?_nil, walkBy_none]
  | cons r l₂ ih =>
    intro l₁ q n hnd hn
    simp only [List.length_cons] at hn
    obtain ⟨m, rfl⟩ : ∃ m, n = m + 1 := ⟨n - 1, by omega⟩
    have hstep : nextIn (l₁ ++ q :: r :: l₂) q = some r := by
      rw [nextIn_append l₁ (r :: l₂) q hnd]; rfl
    have hre : l₁ ++ q :: r :: l₂ = (l₁ ++ [q]) ++ r :: l₂ := by simp
    have hnd2 : ((l₁ ++ [q]) ++ r :: l₂).Nodup := hre ▸ hnd
    have := ih (l₁ ++ [q]) r m hnd2 (by omega)
    rw [hre] at hstep ⊢
    simp only [walkBy, hstep, this]

theorem walkBy_head (ch : List Pos) (n : Nat) (hnd : ch.Nodup) (hn : ch.length ≤ n) :
    walkBy (nextIn ch) ch.head? n = ch := by
  cases ch with
  | nil => simp [walkBy_none]
  | cons a t =>
    have := walkBy_split t [] a n (by simpa using hnd) (by simpa using hn)
    simpa using this

theorem walkByUntil_split (l₁ : List Pos) :
    ∀ (l₀ l₂ : List Pos) (stop : Pos) (n : Nat),
      (l₀ ++ l₁ ++ stop :: l₂).Nodup → l₁.length ≤ n →
      walkByUntil (nextIn (l₀ ++ l₁ ++ stop :: l₂)) stop ((l₁ ++ stop :: l₂).head?) n = l₁ := by
  induction l₁ with
  | nil =>
    intro l₀ l₂ stop n hnd hn
    cases n with
    | zero => rfl
    | succ m => simp [walkByUntil]
  | cons a l₁ ih =>
    intro l₀ l₂ stop n hnd hn
    simp only [List.length_cons] at hn
    obtain ⟨m, rfl⟩ : ∃ m, n = m + 1 := ⟨n - 1, by omega⟩
    have hndr : (a :: (l₁ ++ stop :: l₂)).Nodup := by
      have h9 : (l₀ ++ (a :: (l₁ ++ stop :: l₂))).Nodup := by simpa using hnd
      exact List.Nodup.of_append_right h9
    have ha : a ≠ stop := by
      intro he
      exact (List.nodup_cons.mp hndr).1 (by simp [he])
    have hstep : nextIn (l₀ ++ (a :: l₁) ++ stop :: l₂) a = (l₁ ++ stop :: l₂).head? := by
      have hre : l₀ ++ (a :: l₁) ++ stop :: l₂ = l₀ ++ a :: (l₁ ++ stop :: l₂) := by simp
      rw [hre, nextIn_append l₀ (l₁ ++ stop :: l₂) a (by simpa using hnd)]
    have hre2 : l₀ ++ (a :: l₁) ++ stop :: l₂ = (l₀ ++ [a]) ++ l₁ ++ stop :: l₂ := by simp
    have := ih (l₀ ++ [a]) l₂ stop m (hre2 ▸ hnd) (by omega)
    simp only [List.head?_cons, walkByUntil, if_neg ha, hstep]
    rw [hre2, this]

theorem prevIn_not_mem (ch : List Pos) (q : Pos) (h : q ∉ ch) : prevIn ch q = none := by
  induction ch with
  | nil => rfl
  | cons a t ih =>
    cases t with
    | nil => rfl
    | cons b r =>
      have hb : b ≠ q := by
        intro he
        exact h (by simp [he])
      simp only [prevIn, if_neg hb]
      exact ih (fun hm => h (List.mem_cons_of_mem a hm))

theorem prevIn_append (l₂ : List Pos) :
    ∀ (l₁ : List Pos) (q : Pos), (l₁ ++ q :: l₂).Nodup →
      prevIn (l₁ ++ q :: l₂) q = l₁.getLast? := by
  intro l₁
  induction l₁ with
  | nil =>
    intro q hnd
    cases l₂ with
    | nil => rfl
    | cons b r =>
      have hq : q ∉ b :: r := (List.nodup_cons.mp (by simpa using hnd)).1
      have hb : b ≠ q := by
        intro he
        exact hq (by simp [he])
      simp only [List.nil_append, prevIn, if_neg hb, List.getLast?_nil]
      exact prevIn_not_mem _ _ hq
  | cons a l₁ ih =>
    intro q hnd
    cases l₁ with
    | nil =>
      simp [prevIn]
    | cons a2 l₁ =>
      have hnd2 : ((a2 :: l₁) ++ q :: l₂).Nodup := (List.nodup_cons.mp (by simpa using hnd)).2
      have ha2 : a2 ≠ q := by
        intro he
        exact (List.nodup_cons.mp hnd2).1 (by simp [he])
      have hrec : prevIn (a2 :: (l₁ ++ q :: l₂)) q = (a2 :: l₁).getLast? := by
        have := ih q hnd2
        simpa using this
      have hstep : prevIn (a :: a2 :: (l₁ ++ q :: l₂)) q = prevIn (a2 :: (l₁ ++ q :: l₂)) q := by
        simp only [prevIn, if_neg ha2]
      show prevIn (a :: a2 :: (l₁ ++ q :: l₂)) q = _
      rw [hstep, hrec, List.getLast?_cons_cons]

theorem prevIn_eq_nextIn_reverse (ch : List Pos) (hnd : ch.Nodup) (q : Pos) :
    prevIn ch q = nextIn ch.reverse q := by
  by_cases hm : q ∈ ch
  · obtain ⟨l₁, l₂, rfl⟩ := List.append_of_mem hm
    have hrev : (l₁ ++ q :: l₂).reverse = l₂.reverse ++ q :: l₁.reverse := by
      simp
    rw [prevIn_append l₂ l₁ q hnd, hrev,
      nextIn_append l₂.reverse l₁.reverse q (by rw [← hrev]; exact List.nodup_reverse.mpr hnd),
      List.head?_reverse]
  · rw [prevIn_not_mem ch q hm, nextIn_not_mem ch.reverse q (by simpa using hm)]

theorem walkBy_congr (f g : Pos → Option Pos) (h : ∀ q, f q = g q) :
    ∀ (n : Nat) (o : Option Pos), walkBy f o n = walkBy g o n := by
  intro n
  induction n with
  | zero => intro o; cases o <;> rfl
  | succ m ih =>
    intro o
    cases o with
    | none => rfl
    | some q => simp only [walkBy, h q, ih]

theorem walkByUntil_congr (f g : Pos → Option Pos) (stop : Pos) (h : ∀ q, f q = g q) :
    ∀ (n : Nat) (o : Option Pos), walkByUntil f stop o n = walkByUntil g stop o n := by
  intro n
  induction n with
  | zero => intro o; cases o <;> rfl
  | succ m ih =>
    intro o
    cases o with
    | none => rfl
    | some q =>
      by_cases hq : q = stop
      · subst hq
        simp [walkByUntil]
      · simp only [walkByUntil, if_neg hq, h q, ih]

theorem Puzzle.first_square_eq_head (p : Puzzle) (d : Direction) (hne : [] ∉ p.words d) :
    p.first_square d = (p.chain d).head? := by
  unfold Puzzle.first_square Puzzle.chain
  cases hw : p.words d with
  | nil => simp
  | cons w ws =>
    have hwne : w ≠ [] := fun he => hne (by rw [hw, he]; exact List.mem_cons_self _ _)
    cases w with
    | nil => exact absurd rfl hwne
    | cons a t => simp

theorem chain_getLast (ws : List (List Pos)) (hne : [] ∉ ws) :
    (ws.flatMap id).getLast? = ws.getLast?.bind List.getLast? := by
  induction ws with
  | nil => rfl
  | cons w ws ih =>
    cases ws with
    | nil => simp
    | cons w2 ws2 =>
      have hne2 : [] ∉ w2 :: ws2 := fun hm => hne (List.mem_cons_of_mem w hm)
      have hw2 : w2 ≠ [] := fun he => hne2 (by rw [← he] at hne2 ⊢; exact List.mem_cons_self _ _)
      have hflat : (w2 :: ws2).flatMap id ≠ [] := by
        simp only [List.flatMap_cons, id]
        intro he
        exact hw2 (List.append_eq_nil.mp he).1
      rw [List.flatMap_cons, id, List.getLast?_append_of_ne_nil _ hflat, ih hne2,
        List.getLast?_cons_cons]

theorem Puzzle.last_square_eq_getLast (p : Puzzle) (d : Direction) (hne : [] ∉ p.words d) :
    p.last_square d = (p.chain d).getLast? := by
  unfold Puzzle.last_square Puzzle.chain
  rw [chain_getLast (p.words d) hne]

/-- Walking `next` pointers from the pointer stored at `q` yields
exactly the part of the chain after `q`. -/
theorem walkBy_after (ch l₁ l₂ : List Pos) (q : Pos) (n : Nat) (hnd : ch.Nodup)
    (hsplit : ch = l₁ ++ q :: l₂) (hn : ch.length ≤ n) :
    walkBy (nextIn ch) (nextIn ch q) n = l₂ := by
  subst hsplit
  rw [nextIn_append l₁ l₂ q hnd]
  cases l₂ with
  | nil => simp [walkBy_none]
  | cons r t =>
    have hre : l₁ ++ q :: r :: t = (l₁ ++ [q]) ++ r :: t := by simp
    have hlen : t.length + 1 ≤ n := by
      simp only [List.length_append, List.length_cons] at hn
      omega
    have := walkBy_split t (l₁ ++ [q]) r n (hre ▸ hnd) hlen
    rw [hre]
    simpa using this

/-- Walking `next` pointers from the head of the chain, stopping at
`stop`, yields exactly the part of the chain before `stop`. -/
theorem walkByUntil_from_head (ch l₁ l₂ : List Pos) (stop : Pos) (n : Nat) (hnd : ch.Nodup)
    (hsplit : ch = l₁ ++ stop :: l₂) (hn : ch.length ≤ n) :
    walkByUntil (nextIn ch) stop ch.head? n = l₁ := by
  subst hsplit
  have hlen : l₁.length ≤ n := by
    simp only [List.length_append, List.length_cons] at hn
    omega
  have := walkByUntil_split l₁ [] l₂ stop n (by simpa using hnd) hlen
  simpa using this

/-- For a square on the chain, the `next` pointer is `none` exactly at
the chain's last square. -/
theorem nextIn_eq_none_iff (ch : List Pos) (q : Pos) (hnd : ch.Nodup) (hq : q ∈ ch) :
    nextIn ch q = none ↔ ch.getLast? = some q := by
  obtain ⟨l₁, l₂, rfl⟩ := List.append_of_mem hq
  rw [nextIn_append l₁ l₂ q hnd]
  cases l₂ with
  | nil =>
    simp [List.getLast?_append_cons]
  | cons r t =>
    have hq2 : q ∉ r :: t := by
      have h9 : (q :: r :: t).Nodup := List.Nodup.of_append_right hnd
      exact (List.nodup_cons.mp h9).1
    constructor
    · intro h
      simp at h
    · intro h
      rw [List.getLast?_append_cons, List.getLast?_cons_cons] at h
      have hq3 : q ∈ (r :: t).getLast? := by
        rw [Option.mem_def]
        exact h
      obtain ⟨hx, heq⟩ := List.mem_getLast?_eq_getLast hq3
      exact absurd (heq ▸ List.getLast_mem hx) hq2

/-- The three phases of `next_squares`: the part of the active chain
after the cursor, then the whole other-direction chain, then the part
of the active chain before the cursor. -/
theorem Puzzle.next_squares_phases (p : Puzzle) (c : Cursor)
    (hnd : (p.chain c.dir).Nodup) (hnd2 : (p.chain c.dir.other).Nodup)
    (hne : [] ∉ p.words c.dir) (hne2 : [] ∉ p.words c.dir.other)
    (l₁ l₂ : List Pos) (hsplit : p.chain c.dir = l₁ ++ c.pos :: l₂) :
    p.next_squares c =
      (l₂.map fun q => (q, c.dir)) ++
      ((p.chain c.dir.other).map fun q => (q, c.dir.other)) ++
      (l₁.map fun q => (q, c.dir)) := by
  have hn1 : (p.chain c.dir).length ≤
      (p.chain c.dir).length + (p.chain c.dir.other).length + 1 := by omega
  have hn2 : (p.chain c.dir.other).length ≤
      (p.chain c.dir).length + (p.chain c.dir.other).length + 1 := by omega
  have h1 := walkBy_after (p.chain c.dir) l₁ l₂ c.pos
    ((p.chain c.dir).length + (p.chain c.dir.other).length + 1) hnd hsplit hn1
  have h2 := walkBy_head (p.chain c.dir.other)
    ((p.chain c.dir).length + (p.chain c.dir.other).length + 1) hnd2 hn2
  have h3 := walkByUntil_from_head (p.chain c.dir) l₁ l₂ c.pos
    ((p.chain c.dir).length + (p.chain c.dir.other).length + 1) hnd hsplit hn1
  simp only [Puzzle.next_squares]
  rw [p.first_square_eq_head c.dir.other hne2, p.first_square_eq_head c.dir hne]
  rw [h1, h2, h3]

/-- The three phases of `prev_squares`: the reversed part of the
active chain before the cursor, then the whole other-direction chain
reversed, then the reversed part of the active chain after the
cursor. -/
theorem Puzzle.prev_squares_phases (p : Puzzle) (c : Cursor)
    (hnd : (p.chain c.dir).Nodup) (hnd2 : (p.chain c.dir.other).Nodup)
    (hne : [] ∉ p.words c.dir) (hne2 : [] ∉ p.words c.dir.other)
    (l₁ l₂ : List Pos) (hsplit : p.chain c.dir = l₁ ++ c.pos :: l₂) :
    p.prev_squares c =
      (l₁.reverse.map fun q => (q, c.dir)) ++
      ((p.chain c.dir.other).reverse.map fun q => (q, c.dir.other)) ++
      (l₂.reverse.map fun q => (q, c.dir)) := by
  have hrev : (p.chain c.dir).reverse = l₂.reverse ++ c.pos :: l₁.reverse := by
    rw [hsplit]
    simp
  have hndr : (p.chain c.dir).reverse.Nodup := List.nodup_reverse.mpr hnd
  have hndr2 : (p.chain c.dir.other).reverse.Nodup := List.nodup_reverse.mpr hnd2
  have hn1 : (p.chain c.dir).reverse.length ≤
      (p.chain c.dir).length + (p.chain c.dir.other).length + 1 := by
    rw [List.length_reverse]
    omega
  have hn2 : (p.chain c.dir.other).reverse.length ≤
      (p.chain c.dir).length + (p.chain c.dir.other).length + 1 := by
    rw [List.length_reverse]
    omega
  have h1 := walkBy_after (p.chain c.dir).reverse l₂.reverse l₁.reverse c.pos
    ((p.chain c.dir).length + (p.chain c.dir.other).length + 1) hndr hrev hn1
  have h2 := walkBy_head (p.chain c.dir.other).reverse
    ((p.chain c.dir).length + (p.chain c.dir.other).length + 1) hndr2 hn2
  have h3 := walkByUntil_from_head (p.chain c.dir).reverse l₂.reverse l₁.reverse c.pos
    ((p.chain c.dir).length + (p.chain c.dir.other).length + 1) hndr hrev hn1
  simp only [Puzzle.prev_squares]
  rw [walkBy_congr _ _ (prevIn_eq_nextIn_reverse _ hnd) _,
    walkBy_congr _ _ (prevIn_eq_nextIn_reverse _ hnd2) _,
    walkByUntil_congr _ _ c.pos (prevIn_eq_nextIn_reverse _ hnd) _,
    prevIn_eq_nextIn_reverse _ hnd c.pos]
  rw [p.last_square_eq_getLast c.dir.other hne2, p.last_square_eq_getLast c.dir hne,
    ← List.head?_reverse, ← List.head?_reverse]
  rw [h1, h2, h3]

/-- Membership in the row-major position list is exactly being in
bounds. -/
theorem Puzzle.mem_allPositions (p : Puzzle) (x y : Int) :
    ((x, y) : Pos) ∈ p.allPositions ↔
      0 ≤ x ∧ x < (p.width : Int) ∧ 0 ≤ y ∧ y < (p.height : Int) := by
  unfold Puzzle.allPositions
  constructor
  · intro hm
    obtain ⟨yn, hyn, hmap⟩ := List.mem_flatMap.mp hm
    obtain ⟨xn, hxn, heq⟩ := List.mem_map.mp hmap
    rw [List.mem_range] at hyn
    rw [List.mem_range] at hxn
    rw [Prod.mk.injEq] at heq
    obtain ⟨hx, hy⟩ := heq
    subst hx
    subst hy
    simp only [Int.ofNat_eq_natCast]
    omega
  · rintro ⟨hx0, hxw, hy0, hyh⟩
    refine List.mem_flatMap.mpr ⟨y.toNat, List.mem_range.mpr (by omega), ?_⟩
    refine List.mem_map.mpr ⟨x.toNat, List.mem_range.mpr (by omega), ?_⟩
    show (Int.ofNat x.toNat, Int.ofNat y.toNat) = (x, y)
    simp only [Int.ofNat_eq_natCast, Int.toNat_of_nonneg hx0, Int.toNat_of_nonneg hy0]

/-- An unblocked cell lies within the bounds, hence appears in the
row-major position list (for a rectangular matrix). -/
theorem Puzzle.isCell_mem_allPositions (p : Puzzle) (hrect : p.rect) (x y : Int)
    (h : p.isCell x y = true) : ((x, y) : Pos) ∈ p.allPositions := by
  unfold Puzzle.isCell Puzzle.cellAt at h
  by_cases hxy : 0 ≤ x ∧ 0 ≤ y
  · rw [if_pos hxy] at h
    cases hg : p.grid.get? y.toNat with
    | none => rw [hg] at h; simp at h
    | some gr =>
      rw [hg] at h
      simp only [Option.getD_some] at h
      cases hx : gr.get? x.toNat with
      | none => rw [hx] at h; simp at h
      | some osq =>
        have hylt : y.toNat < p.grid.length := by
          by_contra hc
          push_neg at hc
          rw [List.get?_eq_none.mpr hc] at hg
          exact absurd hg (by simp)
        have hxlt : x.toNat < gr.length := by
          by_contra hc
          push_neg at hc
          rw [List.get?_eq_none.mpr hc] at hx
          exact absurd hx (by simp)
        have hg2 : p.grid.get? y.toNat = (p.rows.get? y.toNat).map (fun r => mkRowAux (0 + y.toNat) 0 r) :=
          mkGridAux_get? 0 p.rows y.toNat
        rw [hg] at hg2
        obtain ⟨r, hr, hgr⟩ := Option.map_eq_some'.mp hg2.symm
        have hgrlen : gr.length = p.width := by
          rw [← hgr, mkRowAux_length]
          exact hrect r (List.get?_mem hr)
        have hxw : x.toNat < p.width := hgrlen ▸ hxlt
        have hyh : y.toNat < p.height := hylt
        rw [p.mem_allPositions x y]
        omega
  · rw [if_neg hxy] at h
    simp at h

/-- The number of occurrences of a position in a list (a self-contained
count, used to state the enumeration property). -/
def countPos (q : Pos) (l : List Pos) : Nat :=
  (l.filter (fun r => r = q)).length

theorem countPos_nil (q : Pos) : countPos q [] = 0 := rfl

theorem countPos_append (q : Pos) (l₁ l₂ : List Pos) :
    countPos q (l₁ ++ l₂) = countPos q l₁ + countPos q l₂ := by
  unfold countPos
  rw [List.filter_append, List.length_append]

theorem countPos_cons (q a : Pos) (l : List Pos) :
    countPos q (a :: l) = (if a = q then 1 else 0) + countPos q l := by
  unfold countPos
  by_cases ha : a = q <;> simp [List.filter_cons, ha, Nat.add_comm]

theorem countPos_not_mem (q : Pos) (l : List Pos) (h : q ∉ l) : countPos q l = 0 := by
  induction l with
  | nil => rfl
  | cons a t ih =>
    have ha : a ≠ q := fun he => h (he ▸ List.mem_cons_self a t)
    rw [countPos_cons, if_neg ha, ih (fun hm => h (List.mem_cons_of_mem a hm))]

theorem countPos_eq_one (q : Pos) (l : List Pos) (hnd : l.Nodup) (h : q ∈ l) :
    countPos q l = 1 := by
  induction l with
  | nil => exact absurd h (List.not_mem_nil q)
  | cons a t ih =>
    rw [countPos_cons]
    rcases List.mem_cons.mp h with rfl | hm
    · rw [if_pos rfl, countPos_not_mem q t (List.nodup_cons.mp hnd).1]
    · have ha : a ≠ q := fun he => (List.nodup_cons.mp hnd).1 (he ▸ hm)
      rw [if_neg ha, ih (List.nodup_cons.mp hnd).2 hm]

/-- Claim C1: from any cursor the forward traversal `next_squares`
consists of exactly three phases — the cells strictly after the cursor
along its direction's cell chain (paired with that direction), then
the whole other-direction chain from its first cell (paired with the
other direction), then the active chain's cells before the cursor (the
chain does not stop at interior run boundaries; the `next` pointer is
`none` only at the chain's very last cell).  The sequence is finite,
contains only grid cells, and enumerates every cell exactly once per
direction cycle: each unblocked cell other than the cursor's occurs
exactly twice (once per direction phase), the cursor's cell exactly
once (in the other direction's phase).  The linkage and coverage
facts about the constructed chains appear as decidable hypotheses,
discharged on the concrete test grid in the witness. -/
theorem claim_C1 (p : Puzzle) (c : Cursor)
    (hrect : p.rect)
    (hnd : (p.chain c.dir).Nodup) (hnd2 : (p.chain c.dir.other).Nodup)
    (hne : [] ∉ p.words c.dir) (hne2 : [] ∉ p.words c.dir.other)
    (hmem : c.pos ∈ p.chain c.dir)
    (hsub : ∀ q ∈ p.chain c.dir, p.isCell q.1 q.2)
    (hsub2 : ∀ q ∈ p.chain c.dir.other, p.isCell q.1 q.2)
    (hcov : ∀ q ∈ p.allPositions, p.isCell q.1 q.2 → q ∈ p.chain c.dir)
    (hcov2 : ∀ q ∈ p.allPositions, p.isCell q.1 q.2 → q ∈ p.chain c.dir.other) :
    ∃ l₁ l₂, p.chain c.dir = l₁ ++ c.pos :: l₂ ∧
      p.next_squares c =
        (l₂.map fun q => (q, c.dir)) ++
        ((p.chain c.dir.other).map fun q => (q, c.dir.other)) ++
        (l₁.map fun q => (q, c.dir)) ∧
      (∀ q ∈ p.chain c.dir,
        (nextIn (p.chain c.dir) q = none ↔ (p.chain c.dir).getLast? = some q)) ∧
      (∀ qd ∈ p.next_squares c, p.isCell qd.1.1 qd.1.2) ∧
      (∀ q : Pos, p.isCell q.1 q.2 →
        countPos q ((p.next_squares c).map Prod.fst) = if q = c.pos then 1 else 2) := by
  obtain ⟨l₁, l₂, hsplit⟩ := List.append_of_mem hmem
  have hphases := p.next_squares_phases c hnd hnd2 hne hne2 l₁ l₂ hsplit
  refine ⟨l₁, l₂, hsplit, hphases, ?_, ?_, ?_⟩
  · intro q hq
    exact nextIn_eq_none_iff _ q hnd hq
  · intro qd hqd
    rw [hphases] at hqd
    simp only [List.mem_append, List.mem_map] at hqd
    rcases hqd with (⟨q, hq, rfl⟩ | ⟨q, hq, rfl⟩) | ⟨q, hq, rfl⟩
    · exact hsub q (by rw [hsplit]; exact List.mem_append_right _ (List.mem_cons_of_mem _ hq))
    · exact hsub2 q hq
    · exact hsub q (by rw [hsplit]; exact List.mem_append_left _ hq)
  · intro q hq
    have hall : ((q.1, q.2) : Pos) ∈ p.allPositions :=
      p.isCell_mem_allPositions hrect q.1 q.2 hq
    have hall2 : q ∈ p.allPositions := by simpa using hall
    have hq1 : q ∈ p.chain c.dir := hcov q hall2 hq
    have hq2 : q ∈ p.chain c.dir.other := hcov2 q hall2 hq
    have hcnt : countPos q (p.chain c.dir) = 1 := countPos_eq_one q _ hnd hq1
    have hcnt2 : countPos q (p.chain c.dir.other) = 1 := countPos_eq_one q _ hnd2 hq2
    rw [hsplit, countPos_append, countPos_cons] at hcnt
    rw [hphases]
    simp only [List.map_append, List.map_map, countPos_append]
    have hfst : ∀ (l : List Pos) (d : Direction),
        List.map (Prod.fst ∘ fun r => (r, d)) l = l := by
      intro l d
      induction l with
      | nil => rfl
      | cons a t ih => simpa using ih
    rw [hfst l₂ c.dir, hfst (p.chain c.dir.other) c.dir.other, hfst l₁ c.dir]
    by_cases hqc : q = c.pos
    · subst hqc
      rw [if_pos rfl]
      have h0 : (if c.pos = c.pos then (1 : Nat) else 0) = 1 := if_pos rfl
      rw [h0] at hcnt
      omega
    · rw [if_neg hqc]
      have h0 : (if c.pos = q then (1 : Nat) else 0) = 0 := if_neg (fun he => hqc he.symm)
      rw [h0] at hcnt
      omega

/-- Claim C1 witness: the traversal facts at the concrete cursor
(2, 3) row-direction on the 7x7 test grid, with every linkage and
coverage hypothesis checked by computation. -/
theorem claim_C1_witness :
    testPuzzle.rect ∧
    (testPuzzle.chain Direction.ACROSS).Nodup ∧
    (testPuzzle.chain Direction.DOWN).Nodup ∧
    [] ∉ testPuzzle.words Direction.ACROSS ∧
    [] ∉ testPuzzle.words Direction.DOWN ∧
    ((2, 3) : Pos) ∈ testPuzzle.chain Direction.ACROSS ∧
    (∃ l₁ l₂, testPuzzle.chain Direction.ACROSS = l₁ ++ ((2, 3) : Pos) :: l₂ ∧
      testPuzzle.next_squares ⟨(2, 3), Direction.ACROSS⟩ =
        (l₂.map fun q => (q, Direction.ACROSS)) ++
        ((testPuzzle.chain Direction.DOWN).map fun q => (q, Direction.DOWN)) ++
        (l₁.map fun q => (q, Direction.ACROSS)) ∧
      (∀ q ∈ testPuzzle.chain Direction.ACROSS,
        (nextIn (testPuzzle.chain Direction.ACROSS) q = none ↔
          (testPuzzle.chain Direction.ACROSS).getLast? = some q)) ∧
      (∀ qd ∈ testPuzzle.next_squares ⟨(2, 3), Direction.ACROSS⟩,
        testPuzzle.isCell qd.1.1 qd.1.2) ∧
      (∀ q : Pos, testPuzzle.isCell q.1 q.2 →
        countPos q ((testPuzzle.next_squares ⟨(2, 3), Direction.ACROSS⟩).map Prod.fst) =
          if q = ((2, 3) : Pos) then 1 else 2)) :=
  ⟨by decide, by decide, by decide, by decide, by decide, by decide,
   claim_C1 testPuzzle ⟨(2, 3), Direction.ACROSS⟩ (by decide) (by decide) (by decide)
     (by decide) (by decide) (by decide) (by decide) (by decide) (by decide) (by decide)⟩

/-- Claim C4: the backward traversal `prev_squares` is exactly the
reverse of the forward traversal `next_squares` from the same cursor;
consequently a full forward run followed by a full backward run ends
where it started (the first backward pair is the last forward pair,
and the last backward pair — the one just before returning to the
start — is the first forward pair). -/
theorem claim_C4 (p : Puzzle) (c : Cursor)
    (hnd : (p.chain c.dir).Nodup) (hnd2 : (p.chain c.dir.other).Nodup)
    (hne : [] ∉ p.words c.dir) (hne2 : [] ∉ p.words c.dir.other)
    (hmem : c.pos ∈ p.chain c.dir) :
    p.prev_squares c = (p.next_squares c).reverse ∧
    (p.prev_squares c).head? = (p.next_squares c).getLast? ∧
    (p.prev_squares c).getLast? = (p.next_squares c).head? := by
  obtain ⟨l₁, l₂, hsplit⟩ := List.append_of_mem hmem
  have hrev : p.prev_squares c = (p.next_squares c).reverse := by
    rw [p.next_squares_phases c hnd hnd2 hne hne2 l₁ l₂ hsplit,
      p.prev_squares_phases c hnd hnd2 hne hne2 l₁ l₂ hsplit]
    simp [List.reverse_append, List.map_reverse, List.append_assoc]
  refine ⟨hrev, ?_, ?_⟩
  · rw [hrev, List.head?_reverse]
  · rw [hrev, List.getLast?_reverse]

theorem find?_cons_true {α : Type} (p : α → Bool) (a : α) (l : List α) (h : p a = true) :
    (a :: l).find? p = some a := by
  simp [List.find?, h]

theorem find?_cons_false {α : Type} (p : α → Bool) (a : α) (l : List α) (h : p a = false) :
    (a :: l).find? p = l.find? p := by
  simp [List.find?, h]

/-- If a pair list is the image of a position list under pairing with
a fixed direction, searching it with a pair condition is searching the
position list with the direction fixed. -/
theorem find?_pairs (cond : Pos → Direction → Bool) (l : List Pos) (d : Direction) :
    (l.map fun q => (q, d)).find? (fun qd => cond qd.1 qd.2) =
      (l.find? (fun q => cond q d)).map (fun q => (q, d)) := by
  induction l with
  | nil => rfl
  | cons a t ih =>
    cases hcd : cond a d with
    | true =>
      rw [List.map_cons,
        find?_cons_true (fun qd => cond qd.1 qd.2) (a, d) _ hcd,
        find?_cons_true (fun q => cond q d) a t hcd,
        Option.map_some']
    | false =>
      rw [List.map_cons,
        find?_cons_false (fun qd => cond qd.1 qd.2) (a, d) _ hcd,
        find?_cons_false (fun q => cond q d) a t hcd, ih]

/-- In a word list with duplicate-free flattening, the first word
containing a position is the (unique) word it belongs to. -/
theorem find?_word_eq (q : Pos) (W : List Pos) (hq : q ∈ W) :
    ∀ (ws : List (List Pos)), (ws.flatMap id).Nodup → W ∈ ws →
      ws.find? (fun w => q ∈ w) = some W := by
  intro ws
  induction ws with
  | nil =>
    intro _ hW
    exact absurd hW (List.not_mem_nil W)
  | cons v ws ih =>
    intro hnd hW
    have hflat : (v ++ ws.flatMap id).Nodup := by
      simpa [List.flatMap_cons] using hnd
    rcases List.mem_cons.mp hW with rfl | hmem
    · exact List.find?_cons_of_pos _ (by simpa using hq)
    · have hqv : q ∉ v := by
        intro hqv
        have hqflat : q ∈ ws.flatMap id := List.mem_flatMap.mpr ⟨W, hmem, hq⟩
        exact List.disjoint_of_nodup_append hflat hqv hqflat
      rw [List.find?_cons_of_neg _ (by simpa using hqv)]
      exact ih (List.Nodup.of_append_right hflat) hmem

/-- `square.word[direction]` is the unique word containing the square
(when the chain has no duplicates). -/
theorem Puzzle.wordOf_eq (p : Puzzle) (d : Direction) (hnd : (p.chain d).Nodup)
    (W : List Pos) (hW : W ∈ p.words d) (q : Pos) (hq : q ∈ W) :
    p.wordOf d q = some W :=
  find?_word_eq q W hq (p.words d) hnd hW

theorem Puzzle.is_start_word (p : Puzzle) (d : Direction) (q : Pos) (W : List Pos)
    (hfind : p.wordOf d q = some W) :
    p.is_start d q = decide (W.head? = some q) := by
  unfold Puzzle.is_start
  rw [hfind]

/-- Claim C5: from a cursor on the start of a run `W` of its active
direction that is preceded by another run `Wm` in that direction's
word order (in particular `W` is not the very first run),
word-start-backward (`b`) lands on the start of `Wm` carrying the same
direction, and word-start-forward (`w`) then returns to the start of
`W` with the direction unchanged — so `b` then `w` is the identity
there.  Both jumps are by definition the first pair of the backward
resp. forward traversal whose cell starts its run in the direction the
pair carries. -/
theorem claim_C5 (p : Puzzle) (c : Cursor)
    (hnd : (p.chain c.dir).Nodup) (hnd2 : (p.chain c.dir.other).Nodup)
    (hne : [] ∉ p.words c.dir) (hne2 : [] ∉ p.words c.dir.other)
    (ws₁ ws₂ : List (List Pos)) (Wm W : List Pos)
    (hw : p.words c.dir = ws₁ ++ Wm :: W :: ws₂)
    (hhead : W.head? = some c.pos)
    (hWm : Wm ≠ []) :
    ∃ m₀, Wm.head? = some m₀ ∧
      p.bMotion c = ⟨m₀, c.dir⟩ ∧
      p.is_start c.dir m₀ = true ∧
      p.wMotion (p.bMotion c) = c := by
  obtain ⟨m₀, Wm', rfl⟩ : ∃ a t, Wm = a :: t := by
    cases Wm with
    | nil => exact absurd rfl hWm
    | cons a t => exact ⟨a, t, rfl⟩
  obtain ⟨W', rfl⟩ : ∃ t, W = c.pos :: t := by
    cases W with
    | nil => exact absurd hhead (by simp)
    | cons a t =>
      refine ⟨t, ?_⟩
      have : a = c.pos := by simpa using hhead
      rw [this]
  have hchain : p.chain c.dir =
      ws₁.flatMap id ++ ((m₀ :: Wm') ++ ((c.pos :: W') ++ ws₂.flatMap id)) := by
    unfold Puzzle.chain
    rw [hw]
    simp [List.flatMap_append, List.flatMap_cons]
  have hWm_mem : (m₀ :: Wm') ∈ p.words c.dir := by
    rw [hw]
    simp
  have hW_mem : (c.pos :: W') ∈ p.words c.dir := by
    rw [hw]
    simp
  have hWm_nodup : (m₀ :: Wm').Nodup := by
    have h1 : ((m₀ :: Wm') ++ ((c.pos :: W') ++ ws₂.flatMap id)).Nodup := by
      have h9 : (ws₁.flatMap id ++
          ((m₀ :: Wm') ++ ((c.pos :: W') ++ ws₂.flatMap id))).Nodup := hchain ▸ hnd
      exact List.Nodup.of_append_right h9
    exact List.Nodup.of_append_left h1
  have hstart_m : p.is_start c.dir m₀ = true := by
    rw [p.is_start_word c.dir m₀ (m₀ :: Wm')
      (p.wordOf_eq c.dir hnd (m₀ :: Wm') hWm_mem m₀ (List.mem_cons_self _ _))]
    simp
  have hnot_start : ∀ q ∈ Wm', p.is_start c.dir q = false := by
    intro q hq
    rw [p.is_start_word c.dir q (m₀ :: Wm')
      (p.wordOf_eq c.dir hnd (m₀ :: Wm') hWm_mem q (List.mem_cons_of_mem _ hq))]
    have hne3 : m₀ ≠ q := fun he => (List.nodup_cons.mp hWm_nodup).1 (he ▸ hq)
    simp only [List.head?_cons, decide_eq_false_iff_not]
    intro he
    exact hne3 (by injection he)
  have hstart_c : p.is_start c.dir c.pos = true := by
    rw [p.is_start_word c.dir c.pos (c.pos :: W')
      (p.wordOf_eq c.dir hnd (c.pos :: W') hW_mem c.pos (List.mem_cons_self _ _))]
    simp
  -- the b jump
  have hsplit_b : p.chain c.dir =
      (ws₁.flatMap id ++ m₀ :: Wm') ++ c.pos :: (W' ++ ws₂.flatMap id) := by
    rw [hchain]
    simp
  have hprev := p.prev_squares_phases c hnd hnd2 hne hne2 _ _ hsplit_b
  have hrev1 : (ws₁.flatMap id ++ m₀ :: Wm').reverse =
      Wm'.reverse ++ m₀ :: (ws₁.flatMap id).reverse := by
    simp
  have hfind_b : ((ws₁.flatMap id ++ m₀ :: Wm').reverse).find?
      (fun q => p.startCond q c.dir) = some m₀ := by
    rw [hrev1, List.find?_append]
    have h0 : Wm'.reverse.find? (fun q => p.startCond q c.dir) = none := by
      rw [List.find?_eq_none]
      intro q hq
      simp [Puzzle.startCond, hnot_start q (List.mem_reverse.mp hq)]
    rw [h0, find?_cons_true (fun q => p.startCond q c.dir) m₀ _ hstart_m]
    rfl
  have hb : p.bMotion c = ⟨m₀, c.dir⟩ := by
    unfold Puzzle.bMotion Puzzle.go_to_prev_square
    rw [hprev, List.find?_append, List.find?_append, find?_pairs p.startCond, hfind_b]
    rfl
  -- the w jump back
  have hsplit_w : p.chain c.dir =
      ws₁.flatMap id ++ m₀ :: (Wm' ++ c.pos :: (W' ++ ws₂.flatMap id)) := by
    rw [hchain]
    simp
  have hnext := p.next_squares_phases ⟨m₀, c.dir⟩ hnd hnd2 hne hne2 _ _ hsplit_w
  have hfind_w : (Wm' ++ c.pos :: (W' ++ ws₂.flatMap id)).find?
      (fun q => p.startCond q c.dir) = some c.pos := by
    rw [List.find?_append]
    have h0 : Wm'.find? (fun q => p.startCond q c.dir) = none := by
      rw [List.find?_eq_none]
      intro q hq
      simp [Puzzle.startCond, hnot_start q hq]
    rw [h0, find?_cons_true (fun q => p.startCond q c.dir) c.pos _ hstart_c]
    rfl
  have hwjump : p.wMotion ⟨m₀, c.dir⟩ = c := by
    unfold Puzzle.wMotion Puzzle.go_to_next_square
    rw [hnext, List.find?_append, List.find?_append, find?_pairs p.startCond, hfind_w]
    rfl
  exact ⟨m₀, rfl, hb, hstart_m, by rw [hb]; exact hwjump⟩

/-- Claim C5 witness: starting from the run start (4, 3) of CHE
(row-direction, preceded by the run ALE and followed by later runs),
`b` lands on the start (0, 3) of ALE and `w` returns to (4, 3). -/
theorem claim_C5_witness :
    (testPuzzle.chain Direction.ACROSS).Nodup ∧
    (testPuzzle.chain Direction.DOWN).Nodup ∧
    [] ∉ testPuzzle.words Direction.ACROSS ∧
    [] ∉ testPuzzle.words Direction.DOWN ∧
    testPuzzle.words Direction.ACROSS =
      [[(1, 0), (2, 0), (3, 0), (4, 0), (5, 0)],
       [(0, 1), (1, 1), (2, 1), (3, 1), (4, 1), (5, 1), (6, 1)],
       [(0, 2), (1, 2), (2, 2), (3, 2), (4, 2), (5, 2), (6, 2)]] ++
      [(0, 3), (1, 3), (2, 3)] :: [(4, 3), (5, 3), (6, 3)] ::
      [[(0, 4), (1, 4), (2, 4), (3, 4), (4, 4), (5, 4), (6, 4)],
       [(0, 5), (1, 5), (2, 5), (3, 5), (4, 5), (5, 5), (6, 5)],
       [(1, 6), (2, 6), (3, 6), (4, 6), (5, 6)]] ∧
    (∃ m₀, ([(0, 3), (1, 3), (2, 3)] : List Pos).head? = some m₀ ∧
      testPuzzle.bMotion ⟨(4, 3), Direction.ACROSS⟩ = ⟨m₀, Direction.ACROSS⟩ ∧
      testPuzzle.is_start Direction.ACROSS m₀ = true ∧
      testPuzzle.wMotion (testPuzzle.bMotion ⟨(4, 3), Direction.ACROSS⟩) =
        ⟨(4, 3), Direction.ACROSS⟩) :=
  ⟨by decide, by decide, by decide, by decide, by decide,
   claim_C5 testPuzzle ⟨(4, 3), Direction.ACROSS⟩ (by decide) (by decide) (by decide)
     (by decide)
     [[(1, 0), (2, 0), (3, 0), (4, 0), (5, 0)],
      [(0, 1), (1, 1), (2, 1), (3, 1), (4, 1), (5, 1), (6, 1)],
      [(0, 2), (1, 2), (2, 2), (3, 2), (4, 2), (5, 2), (6, 2)]]
     [[(0, 4), (1, 4), (2, 4), (3, 4), (4, 4), (5, 4), (6, 4)],
      [(0, 5), (1, 5), (2, 5), (3, 5), (4, 5), (5, 5), (6, 5)],
      [(1, 6), (2, 6), (3, 6), (4, 6), (5, 6)]]
     [(0, 3), (1, 3), (2, 3)] [(4, 3), (5, 3), (6, 3)]
     (by decide) (by decide) (by decide)⟩

/-- Decimal digits of a natural number, as produced by str() (fuelled;
the fuel n + 1 always suffices). -/
def natDigits : Nat → Nat → List Char
  | 0, _ => []
  | fuel + 1, n =>
    if n < 10 then [Char.ofNat (48 + n)]
    else natDigits fuel (n / 10) ++ [Char.ofNat (48 + n % 10)]

def natToString (n : Nat) : String := String.mk (natDigits (n + 1) n)

/-- The clue number label of a square: `str(square.clue_number())` or
the empty string (xword.py lines 438 to 439). -/
def Puzzle.clueNumberString (p : Puzzle) (q : Pos) : String :=
  match p.clue_number q with
  | some n => natToString n
  | none => ""

/-- The `boldness` dictionary built at the top of
`Puzzle.render_grid` (xword.py lines 383 to 401): border emphasis
shapes around the word under the cursor, keyed by vertex coordinates.
The Python loop variable pair ends at the word's last cell, so the
closing entries use the last cell's coordinates (the first cell's when
the word has a single cell).  No key is written twice, so the lookup
order is immaterial; the lookup below mirrors dict semantics by taking
the last binding. -/
def boldnessList (word : List Pos) (d : Direction) : List (Pos × Shape) :=
  match word with
  | [] => []
  | (x₀, y₀) :: rest =>
    let xl := ((rest.getLast?).getD (x₀, y₀)).1
    let yl := ((rest.getLast?).getD (x₀, y₀)).2
    match d with
    | .ACROSS =>
      [((x₀, y₀), Shape.DOWN_AND_RIGHT), ((x₀, y₀ + 1), Shape.UP_AND_RIGHT)] ++
      rest.flatMap (fun q => [((q.1, q.2), Shape.HORIZONTAL), ((q.1, q.2 + 1), Shape.HORIZONTAL)]) ++
      [((xl + 1, yl), Shape.DOWN_AND_LEFT), ((xl + 1, yl + 1), Shape.UP_AND_LEFT)]
    | .DOWN =>
      [((x₀, y₀), Shape.DOWN_AND_RIGHT), ((x₀ + 1, y₀), Shape.DOWN_AND_LEFT)] ++
      rest.flatMap (fun q => [((q.1, q.2), Shape.VERTICAL), ((q.1 + 1, q.2), Shape.VERTICAL)]) ++
      [((xl, yl + 1), Shape.UP_AND_RIGHT), ((xl + 1, yl + 1), Shape.UP_AND_LEFT)]

/-- `boldness.get((x, y), Shape.NONE)`: the last binding for the key,
or `NONE`. -/
def boldnessAt (bl : List (Pos × Shape)) (q : Pos) : Shape :=
  match bl.reverse.find? (fun e => e.1 = q) with
  | some e => e.2
  | none => Shape.NONE

/-- The structural shape of the vertex at column x, row y of the
border lattice (xword.py lines 405 to 425). -/
def vertexShape (w h y x : Nat) : Shape :=
  if x = 0 then
    if y = 0 then Shape.DOWN_AND_RIGHT
    else if y < h then Shape.VERTICAL_AND_RIGHT
    else Shape.UP_AND_RIGHT
  else if x < w then
    if y = 0 then Shape.DOWN_AND_HORIZONTAL
    else if y < h then Shape.VERTICAL_AND_HORIZONTAL
    else Shape.UP_AND_HORIZONTAL
  else
    if y = 0 then Shape.DOWN_AND_LEFT
    else if y < h then Shape.VERTICAL_AND_LEFT
    else Shape.UP_AND_LEFT

def charRepeat (ch : Char) (n : Nat) : String := String.mk (List.replicate n ch)

/-- One x iteration of a vertex row (xword.py lines 404 to 449):
vertex glyph, then (for x < width) the clue number label, bolded when
the square is the active word's first square, padded with horizontal
edge glyphs to 3 columns.  The `Option Square` argument threads the
Python `square` variable, which holds its stale previous value in the
bottom row where `y < height` fails. -/
def vertexPiece (p : Puzzle) (bl : List (Pos × Shape)) (word0 : Option Pos) (y x : Nat)
    (stale : Option Square) : String × Option Square :=
  let vshape := vertexShape p.width p.height y x
  let vbold := boldnessAt bl (Int.ofNat x, Int.ofNat y)
  let vertex := String.mk [boxChar vshape vbold]
  if x < p.width then
    let hbold := if vbold = Shape.DOWN_AND_RIGHT ∨ vbold = Shape.UP_AND_RIGHT ∨
        vbold = Shape.HORIZONTAL then Shape.HORIZONTAL else Shape.NONE
    let hchar := boxChar Shape.HORIZONTAL hbold
    let sq2 := if y < p.height then p.cellAt (Int.ofNat x) (Int.ofNat y) else stale
    let nums := if y < p.height then
        match p.cellAt (Int.ofNat x) (Int.ofNat y) with
        | some _ => p.clueNumberString (Int.ofNat x, Int.ofNat y)
        | none => ""
      else ""
    let pad := charRepeat hchar (3 - nums.length)
    let isFirst : Bool := match sq2 with
      | some s => word0 = some (s.x, s.y)
      | none => false
    let numsShown := if isFirst then bold nums else nums
    (vertex ++ numsShown ++ pad, sq2)
  else
    (vertex, stale)

/-- The x loop of a vertex row, accumulating the pieces. -/
def vertexCells (p : Puzzle) (bl : List (Pos × Shape)) (word0 : Option Pos) (y : Nat) :
    List Nat → Option Square → String × Option Square
  | [], stale => ("", stale)
  | x :: xs, stale =>
    let piece := vertexPiece p bl word0 y x stale
    let r := vertexCells p bl word0 y xs piece.2
    (piece.1 ++ r.1, r.2)

/-- One x iteration of a content row (xword.py lines 452 to 463):
vertical edge glyph, then (for x < width) the blocked-cell glyphs or
the square's rendered interior. -/
def contentPiece (p : Puzzle) (fill : Fill) (bl : List (Pos × Shape)) (y x : Nat)
    (stale : Option Square) : String × Option Square :=
  let vbold := boldnessAt bl (Int.ofNat x, Int.ofNat y)
  let ebold := if vbold = Shape.DOWN_AND_RIGHT ∨ vbold = Shape.DOWN_AND_LEFT ∨
      vbold = Shape.VERTICAL then Shape.VERTICAL else Shape.NONE
  let edge := String.mk [boxChar Shape.VERTICAL ebold]
  if x < p.width then
    let sq := p.cellAt (Int.ofNat x) (Int.ofNat y)
    let interior := match sq with
      | none => "░░░"
      | some _ => renderSquare (fill (Int.ofNat x, Int.ofNat y))
    (edge ++ interior, sq)
  else
    (edge, stale)

/-- The x loop of a content row, accumulating the pieces. -/
def contentCells (p : Puzzle) (fill : Fill) (bl : List (Pos × Shape)) (y : Nat) :
    List Nat → Option Square → String × Option Square
  | [], stale => ("", stale)
  | x :: xs, stale =>
    let piece := contentPiece p fill bl y x stale
    let r := contentCells p fill bl y xs piece.2
    (piece.1 ++ r.1, r.2)

/-- The y loop of `Puzzle.render_grid` (xword.py lines 402 to 464):
for each y a vertex row, followed by a content row while
`y < height`. -/
def renderRows (p : Puzzle) (fill : Fill) (bl : List (Pos × Shape)) (word0 : Option Pos) :
    List Nat → Option Square → List String
  | [], _ => []
  | y :: ys, stale =>
    let v := vertexCells p bl word0 y (List.range (p.width + 1)) stale
    if y < p.height then
      let c := contentCells p fill bl y (List.range (p.width + 1)) v.2
      v.1 :: c.1 :: renderRows p fill bl word0 ys c.2
    else
      v.1 :: renderRows p fill bl word0 ys v.2

/-- Translation of `Puzzle.render_grid`, as a pure function of the
grid, the fill state, and the cursor.  The stale `square` variable
starts unassigned in Python; it is modelled as `none` (only
observable on a degenerate zero-width grid). -/
def Puzzle.render_grid (p : Puzzle) (fill : Fill) (c : Cursor) : List String :=
  let word := (p.wordOf c.dir c.pos).getD []
  let bl := boldnessList word c.dir
  renderRows p fill bl word.head? (List.range (p.height + 1)) none

/-- The light-weight counterpart of a heavy box-drawing glyph (inverse
of the emphasis choice in `BOX_DRAWING_CHARS`); other characters are
unchanged. -/
def lightGlyph (ch : Char) : Char :=
  match ch with
  | '┏' => '┌'
  | '┓' => '┐'
  | '┗' => '└'
  | '┛' => '┘'
  | '┲' => '┬'
  | '┱' => '┬'
  | '┯' => '┬'
  | '┢' => '├'
  | '┡' => '├'
  | '┠' => '├'
  | '╆' => '┼'
  | '╅' => '┼'
  | '╄' => '┼'
  | '╃' => '┼'
  | '┿' => '┼'
  | '╂' => '┼'
  | '┪' => '┤'
  | '┩' => '┤'
  | '┨' => '┤'
  | '┺' => '┴'
  | '┹' => '┴'
  | '┷' => '┴'
  | '━' => '─'
  | '┃' => '│'
  | c => c

/-- Remove all emphasis from a rendered line: drop the ANSI escape
sequences and replace every heavy box-drawing glyph by its light
counterpart. -/
def stripAux : Bool → List Char → List Char
  | _, [] => []
  | true, ch :: rest => if ch = 'm' then stripAux false rest else stripAux true rest
  | false, ch :: rest =>
    if ch = '\x1b' then stripAux true rest else lightGlyph ch :: stripAux false rest

def stripEmphasis (s : String) : String := String.mk (stripAux false s.data)

/-- Count of visible characters: a fold that skips ANSI escape
sequences (from escape char up to the terminating `m`). -/
def visAux : Bool → List Char → Nat
  | _, [] => 0
  | true, ch :: rest => if ch = 'm' then visAux false rest else visAux true rest
  | false, ch :: rest => if ch = '\x1b' then visAux true rest else visAux false rest + 1

/-- Whether every escape sequence in the text is terminated (the fold
of `visAux` ends outside an escape). -/
def wfAux : Bool → List Char → Bool
  | b, [] => !b
  | true, ch :: rest => if ch = 'm' then wfAux false rest else wfAux true rest
  | false, ch :: rest => if ch = '\x1b' then wfAux true rest else wfAux false rest

def visibleLength (s : String) : Nat := visAux false s.data

/-- The text is well formed (escapes terminated) and shows n visible
characters. -/
def VisOK (l : List Char) (n : Nat) : Prop :=
  wfAux false l = true ∧ visAux false l = n

theorem wfAux_append (x : List Char) :
    ∀ (b : Bool), wfAux b x = true → ∀ (y : List Char), wfAux b (x ++ y) = wfAux false y := by
  induction x with
  | nil =>
    intro b hb y
    have hbf : b = false := by cases b <;> simp [wfAux] at hb ⊢
    subst hbf
    rfl
  | cons ch rest ih =>
    intro b hb y
    cases b with
    | true =>
      by_cases hm : ch = 'm'
      · simp only [wfAux, if_pos hm, List.cons_append] at hb ⊢
        exact ih false hb y
      · simp only [wfAux, if_neg hm, List.cons_append] at hb ⊢
        exact ih true hb y
    | false =>
      by_cases he : ch = '\x1b'
      · simp only [wfAux, if_pos he, List.cons_append] at hb ⊢
        exact ih true hb y
      · simp only [wfAux, if_neg he, List.cons_append] at hb ⊢
        exact ih false hb y

theorem visAux_append (x : List Char) :
    ∀ (b : Bool), wfAux b x = true →
      ∀ (y : List Char), visAux b (x ++ y) = visAux b x + visAux false y := by
  induction x with
  | nil =>
    intro b hb y
    have hbf : b = false := by cases b <;> simp [wfAux] at hb ⊢
    subst hbf
    simp [visAux]
  | cons ch rest ih =>
    intro b hb y
    cases b with
    | true =>
      by_cases hm : ch = 'm'
      · simp only [wfAux, if_pos hm] at hb
        simp only [List.cons_append, visAux, if_pos hm]
        exact ih false hb y
      · simp only [wfAux, if_neg hm] at hb
        simp only [List.cons_append, visAux, if_neg hm]
        exact ih true hb y
    | false =>
      by_cases he : ch = '\x1b'
      · simp only [wfAux, if_pos he] at hb
        simp only [List.cons_append, visAux, if_pos he]
        exact ih true hb y
      · simp only [wfAux, if_neg he] at hb
        simp only [List.cons_append, visAux, if_neg he]
        have h2 : visAux false (rest ++ y) = visAux false rest + visAux false y := ih false hb y
        show visAux false (rest ++ y) + 1 = visAux false rest + 1 + visAux false y
        omega

theorem visOK_append {x y : List Char} {n m : Nat}
    (hx : VisOK x n) (hy : VisOK y m) : VisOK (x ++ y) (n + m) := by
  refine ⟨?_, ?_⟩
  · rw [wfAux_append x false hx.1 y]
    exact hy.1
  · rw [visAux_append x false hx.1 y, hx.2, hy.2]

theorem visOK_escFree (l : List Char) (h : ∀ ch ∈ l, ch ≠ '\x1b') :
    VisOK l l.length := by
  induction l with
  | nil => exact ⟨rfl, rfl⟩
  | cons ch rest ih =>
    have hch : ch ≠ '\x1b' := h ch (List.mem_cons_self _ _)
    have hr := ih (fun c hc => h c (List.mem_cons_of_mem _ hc))
    refine ⟨?_, ?_⟩
    · simp only [wfAux, if_neg hch]
      exact hr.1
    · simp only [visAux, if_neg hch, List.length_cons]
      rw [hr.2]

theorem visOK_replicate (ch : Char) (n : Nat) (h : ch ≠ '\x1b') :
    VisOK (List.replicate n ch) n := by
  have := visOK_escFree (List.replicate n ch) (fun c hc => by
    rw [List.eq_of_mem_replicate hc]
    exact h)
  simpa using this

/-- Wrapping escape-closed text between two zero-visible-width escape
sequences keeps its visible width. -/
theorem visOK_wrap (pre post : String) (hpre : VisOK pre.data 0) (hpost : VisOK post.data 0)
    (s : String) (n : Nat) (h : VisOK s.data n) : VisOK (pre ++ s ++ post).data n := by
  have hd : (pre ++ s ++ post).data = (pre.data ++ s.data) ++ post.data := by
    rw [String.data_append, String.data_append]
  rw [hd]
  have h2 := visOK_append (visOK_append hpre h) hpost
  simpa using h2

theorem visOK_bold (s : String) (n : Nat) (h : VisOK s.data n) : VisOK (bold s).data n :=
  visOK_wrap "\x1b[1m" "\x1b[22m" ⟨rfl, rfl⟩ ⟨rfl, rfl⟩ s n h

theorem boxChar_ne_esc (s b : Shape) : boxChar s b ≠ '\x1b' := by
  cases s <;> cases b <;> decide

theorem visOK_guessStr (og : Option Char) (hg : ∀ g, og = some g → g ≠ '\x1b') :
    VisOK (guessStr og).data 1 := by
  cases og with
  | none => exact ⟨rfl, rfl⟩
  | some g =>
    have hne2 : g ≠ '\x1b' := hg g rfl
    have := visOK_escFree [g] (by
      intro c hc
      rw [List.mem_singleton.mp hc]
      exact hne2)
    simpa [guessStr] using this

theorem visOK_decorate (stat : Status) (s : String) (n : Nat) (h : VisOK s.data n) :
    VisOK (decorate stat s).data n := by
  cases stat with
  | NORMAL => exact h
  | PENCILLED_IN => exact visOK_wrap "\x1b[2m" "\x1b[22m" ⟨rfl, rfl⟩ ⟨rfl, rfl⟩ s n h
  | MARKED_WRONG => exact visOK_wrap "\x1b[31m" "\x1b[39m" ⟨rfl, rfl⟩ ⟨rfl, rfl⟩ s n h
  | MARKED_RIGHT => exact visOK_wrap "\x1b[32m" "\x1b[39m" ⟨rfl, rfl⟩ ⟨rfl, rfl⟩ s n h
  | REVEALED => exact visOK_wrap "\x1b[34m" "\x1b[39m" ⟨rfl, rfl⟩ ⟨rfl, rfl⟩ s n h

/-- A rendered square interior is always 3 visible characters wide
(provided the stored guess is not itself an escape character). -/
theorem visOK_renderSquare (st : SquareState)
    (hg : ∀ g, st.guess = some g → g ≠ '\x1b') :
    VisOK (renderSquare st).data 3 := by
  have hsp : VisOK (" " : String).data 1 := ⟨rfl, rfl⟩
  have hdec : VisOK (decorate st.status (guessStr st.guess)).data 1 :=
    visOK_decorate st.status _ 1 (visOK_guessStr st.guess hg)
  have h2 : VisOK (" " ++ decorate st.status (guessStr st.guess) ++ " ").data (1 + 1 + 1) := by
    rw [String.data_append, String.data_append]
    exact visOK_append (visOK_append hsp hdec) hsp
  simpa [renderSquare] using h2

/-- A vertex-row field of the form glyph, optionally bolded label,
padding is 4 visible characters when the label fits in 3. -/
theorem visOK_numfield (ns : String) (hlen : ns.length ≤ 3) (hok : VisOK ns.data ns.length)
    (b : Bool) (hchar : Char) (hc : hchar ≠ '\x1b') (v : Char) (hv : v ≠ '\x1b') :
    VisOK ((String.mk [v] ++ (if b then bold ns else ns) ++
      charRepeat hchar (3 - ns.length)).data) 4 := by
  have h1 : VisOK (String.mk [v]).data 1 := by
    have := visOK_escFree [v] (by
      intro c hcm
      rw [List.mem_singleton.mp hcm]
      exact hv)
    simpa using this
  have h2 : VisOK (if b then bold ns else ns).data ns.length := by
    cases b with
    | true =>
      rw [if_pos rfl]
      exact visOK_bold ns ns.length hok
    | false => exact hok
  have h3 : VisOK (charRepeat hchar (3 - ns.length)).data (3 - ns.length) := by
    have := visOK_replicate hchar (3 - ns.length) hc
    simpa [charRepeat] using this
  have h4 : VisOK ((String.mk [v] ++ (if b then bold ns else ns) ++
      charRepeat hchar (3 - ns.length)).data) (1 + ns.length + (3 - ns.length)) := by
    rw [String.data_append, String.data_append]
    exact visOK_append (visOK_append h1 h2) h3
  have heq : 1 + ns.length + (3 - ns.length) = 4 := by omega
  rw [heq] at h4
  exact h4

theorem visOK_vertexPiece_lt (p : Puzzle) (bl : List (Pos × Shape)) (word0 : Option Pos)
    (y x : Nat) (stale : Option Square) (hxw : x < p.width)
    (hnum : ∀ q ∈ p.allPositions, (p.clueNumberString q).length ≤ 3 ∧
      ∀ ch ∈ (p.clueNumberString q).data, ch ≠ '\x1b') :
    VisOK ((vertexPiece p bl word0 y x stale).1).data 4 := by
  have hns : ∀ ns : String,
      (if y < p.height then
        match p.cellAt (Int.ofNat x) (Int.ofNat y) with
        | some _ => p.clueNumberString (Int.ofNat x, Int.ofNat y)
        | none => ""
      else "") = ns → ns.length ≤ 3 ∧ VisOK ns.data ns.length := by
    intro ns hdef
    by_cases hy : y < p.height
    · rw [if_pos hy] at hdef
      cases hc : p.cellAt (Int.ofNat x) (Int.ofNat y) with
      | none =>
        rw [hc] at hdef
        subst hdef
        exact ⟨by simp, ⟨rfl, rfl⟩⟩
      | some sq =>
        rw [hc] at hdef
        subst hdef
        have hmem : ((Int.ofNat x, Int.ofNat y) : Pos) ∈ p.allPositions := by
          rw [p.mem_allPositions]
          simp only [Int.ofNat_eq_natCast]
          omega
        obtain ⟨hlen, hesc⟩ := hnum _ hmem
        refine ⟨hlen, ?_⟩
        have := visOK_escFree (p.clueNumberString (Int.ofNat x, Int.ofNat y)).data hesc
        exact this
    · rw [if_neg hy] at hdef
      subst hdef
      exact ⟨by simp, ⟨rfl, rfl⟩⟩
  obtain ⟨hlen, hok⟩ := hns _ rfl
  simp only [vertexPiece, if_pos hxw]
  exact visOK_numfield _ hlen hok _ _ (boxChar_ne_esc _ _) _ (boxChar_ne_esc _ _)

theorem visOK_vertexPiece_ge (p : Puzzle) (bl : List (Pos × Shape)) (word0 : Option Pos)
    (y x : Nat) (stale : Option Square) (hxw : ¬x < p.width) :
    VisOK ((vertexPiece p bl word0 y x stale).1).data 1 := by
  simp only [vertexPiece, if_neg hxw]
  have := visOK_escFree [boxChar (vertexShape p.width p.height y x)
    (boldnessAt bl (Int.ofNat x, Int.ofNat y))] (by
      intro c hcm
      rw [List.mem_singleton.mp hcm]
      exact boxChar_ne_esc _ _)
  simpa using this

theorem visOK_boxChar (s b : Shape) : VisOK (String.mk [boxChar s b]).data 1 := by
  have := visOK_escFree [boxChar s b] (by
    intro c hcm
    rw [List.mem_singleton.mp hcm]
    exact boxChar_ne_esc s b)
  simpa using this

theorem visOK_contentPiece_lt (p : Puzzle) (fill : Fill) (bl : List (Pos × Shape))
    (y x : Nat) (stale : Option Square) (hxw : x < p.width) (hy : y < p.height)
    (hfill : ∀ q ∈ p.allPositions, ∀ g, (fill q).guess = some g → g ≠ '\x1b') :
    VisOK ((contentPiece p fill bl y x stale).1).data 4 := by
  have h2 : VisOK (match p.cellAt (Int.ofNat x) (Int.ofNat y) with
      | none => "░░░"
      | some _ => renderSquare (fill (Int.ofNat x, Int.ofNat y))).data 3 := by
    cases hc : p.cellAt (Int.ofNat x) (Int.ofNat y) with
    | none => exact ⟨rfl, rfl⟩
    | some sq =>
      have hmem : ((Int.ofNat x, Int.ofNat y) : Pos) ∈ p.allPositions := by
        rw [p.mem_allPositions]
        simp only [Int.ofNat_eq_natCast]
        omega
      exact visOK_renderSquare _ (hfill _ hmem)
  simp only [contentPiece, if_pos hxw]
  rw [String.data_append]
  exact visOK_append (visOK_boxChar _ _) h2

theorem visOK_contentPiece_ge (p : Puzzle) (fill : Fill) (bl : List (Pos × Shape))
    (y x : Nat) (stale : Option Square) (hxw : ¬x < p.width) :
    VisOK ((contentPiece p fill bl y x stale).1).data 1 := by
  simp only [contentPiece, if_neg hxw]
  exact visOK_boxChar _ _

theorem vertexCells_vis (p : Puzzle) (bl : List (Pos × Shape)) (word0 : Option Pos) (y : Nat)
    (hnum : ∀ q ∈ p.allPositions, (p.clueNumberString q).length ≤ 3 ∧
      ∀ ch ∈ (p.clueNumberString q).data, ch ≠ '\x1b') :
    ∀ (n s : Nat) (stale : Option Square), s + n = p.width + 1 →
      VisOK ((vertexCells p bl word0 y (List.range' s n) stale).1).data (4 * n - 3) := by
  intro n
  induction n with
  | zero =>
    intro s stale _
    exact ⟨rfl, rfl⟩
  | succ n ih =>
    intro s stale hsum
    rw [List.range'_succ]
    simp only [vertexCells]
    by_cases hxw : s < p.width
    · have hp := visOK_vertexPiece_lt p bl word0 y s stale hxw hnum
      have hr := ih (s + 1) (vertexPiece p bl word0 y s stale).2 (by omega)
      have hn1 : 1 ≤ n := by omega
      rw [(by omega : 4 * (n + 1) - 3 = 4 + (4 * n - 3)), String.data_append]
      exact visOK_append hp hr
    · have hn0 : n = 0 := by omega
      subst hn0
      have hp := visOK_vertexPiece_ge p bl word0 y s stale hxw
      rw [(by omega : 4 * (0 + 1) - 3 = 1 + 0), String.data_append]
      exact visOK_append hp ⟨rfl, rfl⟩

theorem contentCells_vis (p : Puzzle) (fill : Fill) (bl : List (Pos × Shape)) (y : Nat)
    (hy : y < p.height)
    (hfill : ∀ q ∈ p.allPositions, ∀ g, (fill q).guess = some g → g ≠ '\x1b') :
    ∀ (n s : Nat) (stale : Option Square), s + n = p.width + 1 →
      VisOK ((contentCells p fill bl y (List.range' s n) stale).1).data (4 * n - 3) := by
  intro n
  induction n with
  | zero =>
    intro s stale _
    exact ⟨rfl, rfl⟩
  | succ n ih =>
    intro s stale hsum
    rw [List.range'_succ]
    simp only [contentCells]
    by_cases hxw : s < p.width
    · have hp := visOK_contentPiece_lt p fill bl y s stale hxw hy hfill
      have hr := ih (s + 1) (contentPiece p fill bl y s stale).2 (by omega)
      have hn1 : 1 ≤ n := by omega
      rw [(by omega : 4 * (n + 1) - 3 = 4 + (4 * n - 3)), String.data_append]
      exact visOK_append hp hr
    · have hn0 : n = 0 := by omega
      subst hn0
      have hp := visOK_contentPiece_ge p fill bl y s stale hxw
      rw [(by omega : 4 * (0 + 1) - 3 = 1 + 0), String.data_append]
      exact visOK_append hp ⟨rfl, rfl⟩

/-- Alternation of two lists, first list leading. -/
def weave {α : Type} : List α → List α → List α
  | [], ys => ys
  | x :: xs, [] => x :: xs
  | x :: xs, y :: ys => x :: y :: weave xs ys

theorem renderRows_length (p : Puzzle) (fill : Fill) (bl : List (Pos × Shape))
    (word0 : Option Pos) :
    ∀ (n s : Nat) (stale : Option Square), s + n = p.height + 1 →
      (renderRows p fill bl word0 (List.range' s n) stale).length = 2 * n - 1 := by
  intro n
  induction n with
  | zero =>
    intro s stale _
    rfl
  | succ n ih =>
    intro s stale hsum
    rw [List.range'_succ]
    simp only [renderRows]
    by_cases hy : s < p.height
    · rw [if_pos hy]
      simp only [List.length_cons]
      rw [ih (s + 1) _ (by omega)]
      omega
    · rw [if_neg hy]
      simp only [List.length_cons]
      rw [ih (s + 1) _ (by omega)]
      omega

theorem renderRows_weave (p : Puzzle) (fill : Fill) (bl : List (Pos × Shape))
    (word0 : Option Pos) :
    ∀ (n s : Nat) (stale : Option Square), s + n = p.height + 1 →
      ∃ vs cs : List String, vs.length = n ∧ cs.length = n - 1 ∧
        renderRows p fill bl word0 (List.range' s n) stale = weave vs cs := by
  intro n
  induction n with
  | zero =>
    intro s stale _
    exact ⟨[], [], rfl, rfl, rfl⟩
  | succ n ih =>
    intro s stale hsum
    rw [List.range'_succ]
    simp only [renderRows]
    by_cases hy : s < p.height
    · rw [if_pos hy]
      obtain ⟨vs, cs, hvs, hcs, heq⟩ :=
        ih (s + 1) (contentCells p fill bl s (List.range (p.width + 1))
          (vertexCells p bl word0 s (List.range (p.width + 1)) stale).2).2 (by omega)
      have hn1 : 1 ≤ n := by omega
      refine ⟨(vertexCells p bl word0 s (List.range (p.width + 1)) stale).1 :: vs,
        (contentCells p fill bl s (List.range (p.width + 1))
          (vertexCells p bl word0 s (List.range (p.width + 1)) stale).2).1 :: cs,
        by simp [hvs], ?_, ?_⟩
      · simp only [List.length_cons, hcs]
        omega
      · rw [heq]
        rfl
    · rw [if_neg hy]
      have hn0 : n = 0 := by omega
      subst hn0
      exact ⟨[(vertexCells p bl word0 s (List.range (p.width + 1)) stale).1], [],
        rfl, rfl, rfl⟩

theorem renderRows_vis (p : Puzzle) (fill : Fill) (bl : List (Pos × Shape))
    (word0 : Option Pos)
    (hnum : ∀ q ∈ p.allPositions, (p.clueNumberString q).length ≤ 3 ∧
      ∀ ch ∈ (p.clueNumberString q).data, ch ≠ '\x1b')
    (hfill : ∀ q ∈ p.allPositions, ∀ g, (fill q).guess = some g → g ≠ '\x1b') :
    ∀ (n s : Nat) (stale : Option Square), s + n = p.height + 1 →
      ∀ line ∈ renderRows p fill bl word0 (List.range' s n) stale,
        visibleLength line = 4 * p.width + 1 := by
  intro n
  induction n with
  | zero =>
    intro s stale _ line hline
    exact absurd hline (List.not_mem_nil line)
  | succ n ih =>
    intro s stale hsum line hline
    rw [List.range'_succ] at hline
    simp only [renderRows] at hline
    have hvert : visibleLength
        ((vertexCells p bl word0 s (List.range (p.width + 1)) stale).1) =
          4 * p.width + 1 := by
      have := vertexCells_vis p bl word0 s hnum (p.width + 1) 0 stale (by omega)
      rw [List.range_eq_range']
      have h2 := this.2
      unfold visibleLength
      rw [h2]
      omega
    by_cases hy : s < p.height
    · rw [if_pos hy] at hline
      rcases List.mem_cons.mp hline with rfl | hline2
      · exact hvert
      rcases List.mem_cons.mp hline2 with rfl | hline3
      · have h5 := contentCells_vis p fill bl s hy hfill (p.width + 1) 0
          (vertexCells p bl word0 s (List.range (p.width + 1)) stale).2 (by omega)
        rw [← List.range_eq_range'] at h5
        unfold visibleLength
        rw [h5.2]
        omega
      · exact ih (s + 1) _ (by omega) line hline3
    · rw [if_neg hy] at hline
      rcases List.mem_cons.mp hline with rfl | hline2
      · exact hvert
      · exact ih (s + 1) _ (by omega) line hline2

/-- Claim C9: rendering a grid of width w and height h produces
exactly 2h + 1 lines — h + 1 vertex rows interleaved with h content
rows — and (when every clue number label fits in its 3-column field
and no stored guess is an escape character, both checked by
computation at the witness) every line is exactly 4w + 1 visible
characters wide; the cursor's display coordinates are exactly
(2 + 4x, 1 + 2y). -/
theorem claim_C9 (p : Puzzle) (fill : Fill) (c : Cursor)
    (hnum : ∀ q ∈ p.allPositions, (p.clueNumberString q).length ≤ 3 ∧
      ∀ ch ∈ (p.clueNumberString q).data, ch ≠ '\x1b')
    (hfill : ∀ q ∈ p.allPositions, ∀ g, (fill q).guess = some g → g ≠ '\x1b') :
    (p.render_grid fill c).length = 2 * p.height + 1 ∧
    (∃ vs cs : List String, vs.length = p.height + 1 ∧ cs.length = p.height ∧
      p.render_grid fill c = weave vs cs) ∧
    (∀ line ∈ p.render_grid fill c, visibleLength line = 4 * p.width + 1) ∧
    (∀ c2 : Cursor, c2.displayed_coords = (2 + c2.pos.1 * 4, 1 + c2.pos.2 * 2)) := by
  refine ⟨?_, ?_, ?_, fun c2 => rfl⟩
  · unfold Puzzle.render_grid
    rw [List.range_eq_range']
    rw [renderRows_length p fill _ _ (p.height + 1) 0 none (by omega)]
    omega
  · unfold Puzzle.render_grid
    rw [List.range_eq_range']
    obtain ⟨vs, cs, hvs, hcs, heq⟩ :=
      renderRows_weave p fill _ _ (p.height + 1) 0 none (by omega)
    exact ⟨vs, cs, hvs, by omega, heq⟩
  · unfold Puzzle.render_grid
    rw [List.range_eq_range']
    exact renderRows_vis p fill _ _ hnum hfill (p.height + 1) 0 none (by omega)

/-- Claim C9 witness: the hypotheses and conclusions at the 7x7 test
grid with the empty fill and the cursor of the rendering test. -/
theorem claim_C9_witness :
    (∀ q ∈ testPuzzle.allPositions, (testPuzzle.clueNumberString q).length ≤ 3 ∧
      ∀ ch ∈ (testPuzzle.clueNumberString q).data, ch ≠ '\x1b') ∧
    (∀ q ∈ testPuzzle.allPositions, ∀ g, (emptyFill q).guess = some g → g ≠ '\x1b') ∧
    (testPuzzle.render_grid emptyFill ⟨(6, 3), Direction.DOWN⟩).length =
      2 * testPuzzle.height + 1 ∧
    (∀ line ∈ testPuzzle.render_grid emptyFill ⟨(6, 3), Direction.DOWN⟩,
      visibleLength line = 4 * testPuzzle.width + 1) ∧
    (⟨(6, 3), Direction.DOWN⟩ : Cursor).displayed_coords = (26, 7) :=
  ⟨by decide, by decide,
   (claim_C9 testPuzzle emptyFill ⟨(6, 3), Direction.DOWN⟩ (by decide) (by decide)).1,
   (claim_C9 testPuzzle emptyFill ⟨(6, 3), Direction.DOWN⟩ (by decide) (by decide)).2.2.1,
   by decide⟩

/-- The interiors of content row y: for each column the blocked-cell
glyphs or the square's rendered 3-character field — independent of the
cursor. -/
def interiors (p : Puzzle) (fill : Fill) (y : Nat) : List String :=
  (List.range p.width).map fun x =>
    match p.cellAt (Int.ofNat x) (Int.ofNat y) with
    | none => "░░░"
    | some _ => renderSquare (fill (Int.ofNat x, Int.ofNat y))

/-- A content row as an alternation of single edge glyphs and interior
fields. -/
def weaveCS : List Char → List String → String
  | [], _ => ""
  | e :: es, [] => String.mk [e] ++ weaveCS es []
  | e :: es, i :: is2 => (String.mk [e] ++ i) ++ weaveCS es is2

/-- The string a content row produces does not depend on the incoming
stale square variable. -/
theorem contentCells_fst_stale (p : Puzzle) (fill : Fill) (bl : List (Pos × Shape)) (y : Nat) :
    ∀ (xs : List Nat) (st1 st2 : Option Square),
      (contentCells p fill bl y xs st1).1 = (contentCells p fill bl y xs st2).1 := by
  intro xs
  induction xs with
  | nil => intro _ _; rfl
  | cons x xs ih =>
    intro st1 st2
    simp only [contentCells]
    by_cases hxw : x < p.width
    · simp only [contentPiece, if_pos hxw]
    · simp only [contentPiece, if_neg hxw]
      rw [ih st1 st2]

/-- A content row decomposes into an alternation of edge glyphs and
the cursor-independent interiors. -/
theorem contentCells_weave (p : Puzzle) (fill : Fill) (bl : List (Pos × Shape)) (y : Nat) :
    ∀ (n s : Nat) (stale : Option Square), s + n = p.width + 1 →
      ∃ edges : List Char, edges.length = n ∧
        (contentCells p fill bl y (List.range' s n) stale).1 =
          weaveCS edges ((List.range' s (n - 1)).map fun x =>
            match p.cellAt (Int.ofNat x) (Int.ofNat y) with
            | none => "░░░"
            | some _ => renderSquare (fill (Int.ofNat x, Int.ofNat y))) := by
  intro n
  induction n with
  | zero =>
    intro s stale _
    exact ⟨[], rfl, rfl⟩
  | succ n ih =>
    intro s stale hsum
    rw [List.range'_succ]
    simp only [contentCells]
    by_cases hxw : s < p.width
    · obtain ⟨m, rfl⟩ : ∃ m, n = m + 1 := ⟨n - 1, by omega⟩
      obtain ⟨edges, hlen, heq⟩ :=
        ih (s + 1) (contentPiece p fill bl y s stale).2 (by omega)
      refine ⟨boxChar Shape.VERTICAL
        (if boldnessAt bl (Int.ofNat s, Int.ofNat y) = Shape.DOWN_AND_RIGHT ∨
            boldnessAt bl (Int.ofNat s, Int.ofNat y) = Shape.DOWN_AND_LEFT ∨
            boldnessAt bl (Int.ofNat s, Int.ofNat y) = Shape.VERTICAL then
          Shape.VERTICAL else Shape.NONE) :: edges, by simp [hlen], ?_⟩
      simp only [Nat.add_sub_cancel] at heq ⊢
      rw [heq, List.range'_succ, List.map_cons]
      simp only [contentPiece, if_pos hxw]
      rfl
    · have hn0 : n = 0 := by omega
      subst hn0
      refine ⟨[boxChar Shape.VERTICAL
        (if boldnessAt bl (Int.ofNat s, Int.ofNat y) = Shape.DOWN_AND_RIGHT ∨
            boldnessAt bl (Int.ofNat s, Int.ofNat y) = Shape.DOWN_AND_LEFT ∨
            boldnessAt bl (Int.ofNat s, Int.ofNat y) = Shape.VERTICAL then
          Shape.VERTICAL else Shape.NONE)], rfl, ?_⟩
      simp only [contentPiece, if_neg hxw]
      rfl

/-- In the rendered rows, line 2k + 1 is the content row of
grid row s + k (for some threaded stale value). -/
theorem renderRows_get_content (p : Puzzle) (fill : Fill) (bl : List (Pos × Shape))
    (word0 : Option Pos) :
    ∀ (k n s : Nat) (stale : Option Square), s + n = p.height + 1 → s + k < p.height →
      ∃ st, (renderRows p fill bl word0 (List.range' s n) stale).get? (2 * k + 1) =
        some ((contentCells p fill bl (s + k) (List.range (p.width + 1)) st).1) := by
  intro k
  induction k with
  | zero =>
    intro n s stale hsum hk
    obtain ⟨m, rfl⟩ : ∃ m, n = m + 1 := ⟨n - 1, by omega⟩
    rw [List.range'_succ]
    simp only [renderRows]
    rw [if_pos (show s < p.height by omega)]
    refine ⟨(vertexCells p bl word0 s (List.range (p.width + 1)) stale).2, ?_⟩
    rw [Nat.add_zero]
    rfl
  | succ k ih =>
    intro n s stale hsum hk
    obtain ⟨m, rfl⟩ : ∃ m, n = m + 1 := ⟨n - 1, by omega⟩
    rw [List.range'_succ]
    simp only [renderRows]
    rw [if_pos (show s < p.height by omega)]
    obtain ⟨st, hst⟩ := ih m (s + 1)
      (contentCells p fill bl s (List.range (p.width + 1))
        (vertexCells p bl word0 s (List.range (p.width + 1)) stale).2).2
      (by omega) (by omega)
    refine ⟨st, ?_⟩
    have hidx : 2 * (k + 1) + 1 = ((2 * k + 1) + 1) + 1 := by omega
    rw [hidx, List.get?_cons_succ, List.get?_cons_succ,
      show s + (k + 1) = (s + 1) + k by omega]
    exact hst

/-- Claim C8: rendering is a pure, deterministic function of the grid,
the fill state and the cursor (so equal inputs give byte-identical
output); every content row decomposes as an alternation of single
border-edge glyphs with interior fields that do not depend on the
cursor at all — so changing the cursor (in particular only its
direction) can never change any cell's 3-character interior contents;
and concretely, on the 7x7 test grid, renders from the same cell in
the two directions agree exactly after stripping the heavy border
glyphs and the bold escapes. -/
theorem claim_C8 :
    (∀ (p : Puzzle) (fill : Fill) (c₁ c₂ : Cursor), c₁ = c₂ →
      p.render_grid fill c₁ = p.render_grid fill c₂) ∧
    (∀ (p : Puzzle) (fill : Fill) (c : Cursor) (y : Nat), y < p.height →
      ∃ edges : List Char, edges.length = p.width + 1 ∧
        (p.render_grid fill c).get? (2 * y + 1) =
          some (weaveCS edges (interiors p fill y))) ∧
    ((([((6 : Int), (3 : Int)), ((1 : Int), (0 : Int)), ((3 : Int), (6 : Int))] : List Pos).all
      fun q =>
        (testPuzzle.render_grid emptyFill ⟨q, Direction.ACROSS⟩).map stripEmphasis =
        (testPuzzle.render_grid emptyFill ⟨q, Direction.DOWN⟩).map stripEmphasis) = true) := by
  refine ⟨fun p fill c₁ c₂ h => by rw [h], ?_, by decide⟩
  intro p fill c y hy
  unfold Puzzle.render_grid
  rw [List.range_eq_range']
  obtain ⟨st, hget⟩ := renderRows_get_content p fill
    (boldnessList ((p.wordOf c.dir c.pos).getD []) c.dir)
    ((p.wordOf c.dir c.pos).getD []).head? y (p.height + 1) 0 none (by omega) (by omega)
  rw [Nat.zero_add] at hget
  obtain ⟨edges, hlen, heq⟩ := contentCells_weave p fill
    (boldnessList ((p.wordOf c.dir c.pos).getD []) c.dir) y (p.width + 1) 0 st (by omega)
  refine ⟨edges, hlen, ?_⟩
  rw [hget]
  rw [List.range_eq_range', heq]
  have hint : interiors p fill y =
      (List.range' 0 (p.width + 1 - 1)).map fun x =>
        match p.cellAt (Int.ofNat x) (Int.ofNat y) with
        | none => "░░░"
        | some _ => renderSquare (fill (Int.ofNat x, Int.ofNat y)) := by
    unfold interiors
    rw [List.range_eq_range', Nat.add_sub_cancel]
  rw [hint]

/-- Claim C8 witness: determinism and the interior decomposition at a
concrete render of the test grid. -/
theorem claim_C8_witness :
    (testPuzzle.render_grid emptyFill ⟨(2, 3), Direction.ACROSS⟩ =
      testPuzzle.render_grid emptyFill ⟨(2, 3), Direction.ACROSS⟩) ∧
    ((3 : Nat) < testPuzzle.height ∧
      ∃ edges : List Char, edges.length = testPuzzle.width + 1 ∧
        (testPuzzle.render_grid emptyFill ⟨(2, 3), Direction.ACROSS⟩).get? (2 * 3 + 1) =
          some (weaveCS edges (interiors testPuzzle emptyFill 3))) :=
  ⟨claim_C8.1 testPuzzle emptyFill ⟨(2, 3), Direction.ACROSS⟩ ⟨(2, 3), Direction.ACROSS⟩ rfl,
   ⟨by decide,
    claim_C8.2.1 testPuzzle emptyFill ⟨(2, 3), Direction.ACROSS⟩ 3 (by decide)⟩⟩

/-- Claim C4 witness: at the concrete cursor (6, 3) column-direction
on the 7x7 test grid, the backward traversal is the reverse of the
forward one. -/
theorem claim_C4_witness :
    (testPuzzle.chain Direction.DOWN).Nodup ∧
    (testPuzzle.chain Direction.ACROSS).Nodup ∧
    [] ∉ testPuzzle.words Direction.DOWN ∧
    [] ∉ testPuzzle.words Direction.ACROSS ∧
    ((6, 3) : Pos) ∈ testPuzzle.chain Direction.DOWN ∧
    testPuzzle.prev_squares ⟨(6, 3), Direction.DOWN⟩ =
      (testPuzzle.next_squares ⟨(6, 3), Direction.DOWN⟩).reverse :=
  ⟨by decide, by decide, by decide, by decide, by decide,
   (claim_C4 testPuzzle ⟨(6, 3), Direction.DOWN⟩ (by decide) (by decide) (by decide)
     (by decide) (by decide)).1⟩

end Xword
